import Mathlib

/-!
Verification of the cargo-workspaces release engine against its
natural-language specification.

The definitions below are a shallow embedding of the Rust sources under
src/cargo-workspaces/src/.  Pure functions are translated into Lean
functions; the line-oriented manifest rewriter becomes an explicit fold
over the list of lines with the same context state machine; machine
integers become Nat (no overflow is relevant: versions and indices).
Each definition's doc comment names the Rust item it embeds.
-/

namespace Cw

/-! ## Semver model

The source uses the semver 0.9 crate.  `Identifier`, `Version` and the
increment methods below are modelled from that crate (semver 0.9:
increment_patch / increment_minor / increment_major bump one component,
reset the lower ones and clear both `pre` and `build`). -/

/-- semver 0.9 `Identifier`: a prerelease / build segment. -/
inductive Identifier where
  | numeric (n : Nat)
  | alphaNumeric (s : String)
  deriving DecidableEq, Repr

/-- semver 0.9 `Version`. -/
structure Version where
  major : Nat
  minor : Nat
  patch : Nat
  pre : List Identifier
  build : List Identifier
  deriving DecidableEq, Repr

/-- semver 0.9 `Display` for `Identifier`. -/
def Identifier.str : Identifier → String
  | .numeric n => toString n
  | .alphaNumeric s => s

/-- semver 0.9 `Version::increment_patch`. -/
def Version.incrementPatch (v : Version) : Version :=
  { v with patch := v.patch + 1, pre := [], build := [] }

/-- semver 0.9 `Version::increment_minor`. -/
def Version.incrementMinor (v : Version) : Version :=
  { v with minor := v.minor + 1, patch := 0, pre := [], build := [] }

/-- semver 0.9 `Version::increment_major`. -/
def Version.incrementMajor (v : Version) : Version :=
  { v with major := v.major + 1, minor := 0, patch := 0, pre := [], build := [] }

/-! ## Version bump functions

From src/cargo-workspaces/src/utils/version.rs. -/

/-- `inc_patch` (utils/version.rs): clear a non-empty prerelease,
otherwise increment the patch component. -/
def incPatch (cur : Version) : Version :=
  if cur.pre ≠ [] then { cur with pre := [] }
  else cur.incrementPatch

/-- `inc_minor` (utils/version.rs). -/
def incMinor (cur : Version) : Version :=
  if cur.pre ≠ [] ∧ cur.patch = 0 then { cur with pre := [] }
  else cur.incrementMinor

/-- `inc_major` (utils/version.rs). -/
def incMajor (cur : Version) : Version :=
  if cur.pre ≠ [] ∧ cur.patch = 0 ∧ cur.minor = 0 then { cur with pre := [] }
  else cur.incrementMajor

/-- Helper for `inc_preid`'s `rfind` arm: increment the first numeric
identifier of a list (used on the reversed prerelease, so that the last
numeric identifier is the one incremented). -/
def incFirstNumeric : List Identifier → List Identifier
  | [] => []
  | .numeric n :: xs => .numeric (n + 1) :: xs
  | x :: xs => x :: incFirstNumeric xs

/-- The `rfind`-and-increment step of `inc_preid`: increment the last
numeric identifier in place, or leave the list unchanged when there is
none. -/
def incLastNumeric (l : List Identifier) : List Identifier :=
  (incFirstNumeric l.reverse).reverse

/-- `inc_preid` (utils/version.rs): bump a prerelease toward the
requested identifier. -/
def incPreid (cur : Version) (preid : Identifier) : Version :=
  if cur.pre = [] then
    { cur.incrementPatch with pre := [preid, .numeric 0] }
  else
    match cur.pre with
    | .alphaNumeric id :: rest =>
      if preid.str = id then
        match rest.head? with
        | some (.numeric n) => { cur with pre := [preid, .numeric (n + 1)] }
        | _ => { cur with pre := [preid, .numeric 0] }
      else
        { cur with pre := [preid, .numeric 0] }
    | .numeric n :: _ =>
      if preid.str = toString n then
        { cur with pre := incLastNumeric cur.pre }
      else
        { cur with pre := [preid, .numeric 0] }
    | [] => cur

/-! ## Group names and group resolution

From src/cargo-workspaces/src/utils/pkg.rs and utils/config.rs. -/

/-- `GroupName` (utils/pkg.rs). -/
inductive GroupName where
  | default
  | excluded
  | custom (name : String)
  deriving DecidableEq, Repr

/-- `GroupName::validate` (utils/pkg.rs): reject names that contain the
separator character. -/
def groupNameValidate (s : String) : Except String Unit :=
  if s.data.contains ':' then
    .error ("invalid character : in group name: " ++ s)
  else
    .ok ()

/-- `validate_group_name` (utils/config.rs): run `GroupName::validate`,
then reject the reserved names. -/
def validateGroupName (s : String) : Except String String :=
  match groupNameValidate s with
  | .error e => .error e
  | .ok _ =>
    if s = "excluded" ∨ s = "default" then
      .error ("invalid use of reserved group name: " ++ s)
    else
      .ok s

/-- `WorkspaceGroupSpec` (utils/config.rs).  A member glob is modelled
as the Boolean result of `Pattern::matches_path` on each package's
relative path (the glob crate is an external collaborator). -/
structure WorkspaceGroupSpec where
  name : String
  version : Option Version := none
  members : List (String → Bool)

/-- `WorkspaceConfig` (utils/config.rs), restricted to the fields the
group-assignment loop reads. -/
structure WorkspaceConfig where
  exclude : Option (List (String → Bool)) := none
  group : Option (List WorkspaceGroupSpec) := none

/-- The group-name assignment loop of `get_group_packages`
(utils/pkg.rs, lines 360-383): exclusion globs win immediately;
otherwise the first custom group whose member globs match the package
path is chosen via `Iterator::find`; otherwise Default.  The function
has no error outcome. -/
def assignGroupName (cfg : WorkspaceConfig) (path : String) : GroupName :=
  if (match cfg.exclude with
      | some ex => ex.any (fun m => m path)
      | none => false) then
    .excluded
  else
    match (match cfg.group with
           | some gs => gs.find? (fun g => g.members.any (fun m => m path))
           | none => none : Option WorkspaceGroupSpec) with
    | some g => .custom g.name
    | none => .default

/-! ## Dependency graph builder

From src/cargo-workspaces/src/utils/dag.rs. -/

/-- cargo_metadata `DependencyKind`. -/
inductive DependencyKind where
  | normal
  | build
  | development
  | unknown
  deriving DecidableEq, Repr

/-- The fields of a cargo_metadata `Dependency` read by `dag_insert`. -/
structure Dependency where
  name : String
  kind : DependencyKind
  deriving DecidableEq, Repr

/-- The fields of a cargo_metadata `Package` read by the dag builder. -/
structure Package where
  name : String
  manifestPath : String
  dependencies : List Dependency
  deriving DecidableEq, Repr

/-- A concrete two-package candidate set used by the C4 witness: cli
has a normal dependency on core. -/
def dagExample : List Package :=
  [⟨"cli", "cli/Cargo.toml", [⟨"core", .normal⟩]⟩,
   ⟨"core", "core/Cargo.toml", []⟩]

/-- indexmap `IndexSet::insert`: append if absent, keeping insertion
order. -/
def indexInsert (v : List String) (p : String) : List String :=
  if p ∈ v then v else v ++ [p]

mutual

/-- `dag_insert` (utils/dag.rs): depth-first post-order insertion; a
package already visited is skipped, otherwise its dependencies are
traversed first and its manifest path is appended afterwards.  The Rust
recursion is unbounded (no cycle guard), so the embedding carries a
recursion-depth `fuel`; `dag_fuel_sufficient` below shows any fuel
above the package's rank suffices on acyclic inputs. -/
def dagInsert (pkgs : List Package) : Nat → Package → List String → Option (List String)
  | 0, _, _ => none
  | fuel + 1, pkg, visited =>
    if pkg.manifestPath ∈ visited then some visited
    else
      match dagDeps pkgs fuel pkg.dependencies visited with
      | some v => some (indexInsert v pkg.manifestPath)
      | none => none
termination_by fuel _ _ => (fuel, 0)

/-- The dependency loop inside `dag_insert`: for each declared
dependency, look up the first candidate package with the matching name
and recurse when the dependency kind is normal or build. -/
def dagDeps (pkgs : List Package) : Nat → List Dependency → List String → Option (List String)
  | _, [], visited => some visited
  | fuel, d :: rest, visited =>
    match pkgs.find? (fun p => d.name = p.name) with
    | some dep =>
      match d.kind with
      | .normal | .build =>
        (match dagInsert pkgs fuel dep visited with
         | some v => dagDeps pkgs fuel rest v
         | none => none)
      | _ => dagDeps pkgs fuel rest visited
    | none => dagDeps pkgs fuel rest visited
termination_by fuel deps _ => (fuel, deps.length + 1)

end

/-- `dag` (utils/dag.rs): fold `dag_insert` over the candidate list,
producing the insertion-ordered visited list (the source's `IndexSet`
iteration order).  The names map built alongside it is keyed by
manifest path and irrelevant to the ordering claims. -/
def dag (pkgs : List Package) (fuel : Nat) : Option (List String) :=
  pkgs.foldl
    (fun acc pkg =>
      match acc with
      | some v => dagInsert pkgs fuel pkg v
      | none => none)
    (some [])

/-- Rank-acyclicity of the candidate set: a rank function on package
names under which every in-set normal/build dependency edge strictly
decreases.  For a finite graph such a rank exists exactly when the
traversed subgraph is acyclic. -/
def RankAcyclic (pkgs : List Package) (rank : String → Nat) : Prop :=
  ∀ p ∈ pkgs, ∀ d ∈ p.dependencies,
    (d.kind = .normal ∨ d.kind = .build) →
    ∀ q, pkgs.find? (fun x => d.name = x.name) = some q →
      rank q.name < rank p.name

/-- Manifest paths identify packages uniquely within the candidate set
(the spec's data-model invariant). -/
def PathInj (pkgs : List Package) : Prop :=
  ∀ p ∈ pkgs, ∀ q ∈ pkgs, p.manifestPath = q.manifestPath → p = q

/-- Ordering invariant of the visited list: every already-visited
package has all of its in-set normal/build dependencies visited at a
strictly smaller index. -/
def DagInv (pkgs : List Package) (v : List String) : Prop :=
  ∀ p ∈ pkgs, p.manifestPath ∈ v →
    ∀ d ∈ p.dependencies, (d.kind = .normal ∨ d.kind = .build) →
    ∀ q, pkgs.find? (fun x => d.name = x.name) = some q →
      q.manifestPath ∈ v ∧ v.indexOf q.manifestPath < v.indexOf p.manifestPath

/-- The visited list only ever grows by appending candidate manifest
paths. -/
def DagPost (pkgs : List Package) (v v' : List String) : Prop :=
  (∃ t, v' = v ++ t) ∧
  (∀ x ∈ v', x ∈ v ∨ ∃ p ∈ pkgs, p.manifestPath = x)

/-! ## Version-plan fixpoint propagation

From `do_versioning` in src/cargo-workspaces/src/utils/version.rs
(the while-loop over changed / unchanged packages, lines 129-156). -/

/-- A declared dependency requirement as the planner reads it: the
semver crate's `VersionReq` is an external collaborator, abstracted by
its `matches` function and by the result of `is_unversioned`
(utils/cargo.rs: the requirement equals `>=0.0.0` or `*`). -/
structure Req where
  matchesV : Version → Bool
  unversioned : Bool

/-- The fields of a package the propagation loop reads: its name and
its declared dependencies (dependency name paired with its
requirement). -/
structure PlanPkg where
  name : String
  deps : List (String × Req)

/-- The pull condition of the propagation loop (utils/version.rs lines
139-151): a yet-unplanned package is pulled when some declared
dependency has an entry in some planned group's new-version list and
either the requirement no longer matches the new version or the
requirement is unconstrained. -/
def pullCond (bumped : List (List (String × Version))) (deps : List (String × Req)) : Bool :=
  deps.any (fun x =>
    bumped.any (fun nvs =>
      match nvs.find? (fun e => x.1 = e.1) with
      | some e => (!(x.2.matchesV e.2)) || x.2.unversioned
      | none => false))

/-- The fixpoint propagation while-loop of `do_versioning`
(utils/version.rs lines 129-156).  `oracle` abstracts one
`get_new_versions` round (an interactive collaborator): the
new-version entries it appends for the current changed set.  `fuel`
counts loop iterations; the Rust loop is a `while`, and
`c9_fixpoint_termination` shows fuel beyond the unplanned count always
suffices. -/
def planLoop (oracle : List PlanPkg → List (String × Version)) :
    Nat → List PlanPkg → List PlanPkg → List (List (String × Version)) →
    Option (List (List (String × Version)))
  | 0, changed, _, bumped => if changed.isEmpty then some bumped else none
  | fuel + 1, changed, unchanged, bumped =>
    if changed.isEmpty then some bumped
    else
      planLoop oracle fuel
        (unchanged.filter (fun p => pullCond (bumped ++ [oracle changed]) p.deps))
        (unchanged.filter (fun p => !pullCond (bumped ++ [oracle changed]) p.deps))
        (bumped ++ [oracle changed])

/-- Concrete inputs for the C9 witness: a chain where b depends on a
and c depends on b, both with unconstrained requirements. -/
def planReqAny : Req := ⟨fun _ => true, true⟩

/-- The chain packages for the C9 witness. -/
def planPkgB : PlanPkg := ⟨"b", [("a", planReqAny)]⟩

/-- The chain packages for the C9 witness. -/
def planPkgC : PlanPkg := ⟨"c", [("b", planReqAny)]⟩

/-- A non-interactive bump collaborator for the C9 witness: every
changed package gets version 1.0.1. -/
def planOracleEx : List PlanPkg → List (String × Version) :=
  fun pkgs => pkgs.map (fun p => (p.name, ⟨1, 0, 1, [], []⟩))

/-! ## Manifest text primitives

The manifest rewriter (src/cargo-workspaces/src/utils/cargo.rs) works
on one document at a time.  Text is modelled as `List Char`. -/

/-- Rust/regex whitespace class `\s` (ASCII portion; manifests are
ASCII at the characters the rewriter inspects). -/
def isWs (c : Char) : Bool :=
  c = ' ' || c = '\t' || c = '\n' || c = '\x0b' || c = '\x0c' || c = '\r'

/-- The character class `[0-9A-Za-z-_]` used for names in the manifest
regexes. -/
def isWordChar (c : Char) : Bool :=
  c.isAlphanum || c = '-' || c = '_'

/-- The quote class `['"]`. -/
def isQuote (c : Char) : Bool :=
  c = '\x27' || c = '\x22'

/-- The non-quote class `[^'"]`. -/
def isNonQuote (c : Char) : Bool :=
  !(isQuote c)

/-- `str::trim` (ASCII whitespace portion). -/
def trimL (l : List Char) : List Char :=
  ((l.dropWhile isWs).reverse.dropWhile isWs).reverse

/-- Split on `\n`, keeping every piece (the pieces still carry a
trailing `\r` where one was present). -/
def splitNL : List Char → List (List Char)
  | [] => [[]]
  | c :: cs =>
    if c = '\n' then [] :: splitNL cs
    else
      match splitNL cs with
      | l :: ls => (c :: l) :: ls
      | [] => [[c]]

/-- Strip one trailing `\r` (applied to the pieces that were followed
by a `\n`). -/
def stripCRend (l : List Char) : List Char :=
  if l.getLast? = some '\r' then l.dropLast else l

/-- Rust `str::lines`: split at `\n`, strip one `\r` before each `\n`,
and drop a final empty piece (the optional trailing terminator). -/
def rustLines (s : List Char) : List (List Char) :=
  let ps := splitNL s
  let start := ps.dropLast.map stripCRend
  match ps.getLast? with
  | some last => if last = [] then start else start ++ [last]
  | none => start

/-- Whether the document contains the two-character terminator
(`manifest.contains(CRLF)` in `parse`). -/
def containsCRLF : List Char → Bool
  | [] => false
  | [_] => false
  | a :: b :: rest => (a = '\r' && b = '\n') || containsCRLF (b :: rest)

/-- The terminator used to rejoin the output lines (utils/cargo.rs
`parse`, last line). -/
def lineSep (m : List Char) : List Char :=
  if containsCRLF m then ['\r', '\n'] else ['\n']

/-! ## Semver rendering (semver 0.9 `Display for Version`) -/

/-- Digits of a natural number. -/
def natChars (n : Nat) : List Char :=
  (toString n).data

/-- Rendering of one identifier. -/
def identChars : Identifier → List Char
  | .numeric n => natChars n
  | .alphaNumeric s => s.data

/-- Dot-joined identifiers. -/
def identListChars : List Identifier → List Char
  | [] => []
  | [i] => identChars i
  | i :: rest => identChars i ++ '.' :: identListChars rest

/-- semver 0.9 `Display for Version`: `major.minor.patch`, a `-pre`
suffix when the prerelease is non-empty and a `+build` suffix when the
build metadata is non-empty. -/
def versionChars (v : Version) : List Char :=
  natChars v.major ++ '.' :: natChars v.minor ++ '.' :: natChars v.patch
    ++ (if v.pre = [] then [] else '-' :: identListChars v.pre)
    ++ (if v.build = [] then [] else '+' :: identListChars v.build)

/-! ## Regex models

Each definition below is a hand-compiled matcher for one of the
anchored regexes in utils/cargo.rs.  The optional quotes are forced
choices (when the next input character is a quote the following atom of
the pattern cannot consume it, and when it is not the optional quote
cannot match), and each greedy character-class run is exact because the
class never contains the character the following atom requires, so a
shortened run cannot help; the greedy dot-stars are compiled to
explicit longest-first searches over all split points. -/

/-- The leading `\s*['"]?([0-9A-Za-z-_]+)['"]?` shared by the
dependency-line regexes: returns (consumed text, captured name, rest). -/
def parseNameHead (l : List Char) : Option (List Char × List Char × List Char) :=
  let ws1 := l.takeWhile isWs
  let r1 := l.dropWhile isWs
  let (oq, r2) :=
    match r1 with
    | c :: cs => if isQuote c then ([c], cs) else ([], r1)
    | [] => ([], r1)
  let nm := r2.takeWhile isWordChar
  let r3 := r2.dropWhile isWordChar
  if nm = [] then none
  else
    let (cq, r4) :=
      match r3 with
      | c :: cs => if isQuote c then ([c], cs) else ([], r3)
      | [] => ([], r3)
    some (ws1 ++ oq ++ nm ++ cq, nm, r4)

/-- `\s*=\s*`: returns (consumed text, rest). -/
def parseEq (l : List Char) : Option (List Char × List Char) :=
  let ws := l.takeWhile isWs
  let r := l.dropWhile isWs
  match r with
  | '=' :: r2 =>
    some (ws ++ '=' :: r2.takeWhile isWs, r2.dropWhile isWs)
  | _ => none

/-- Drop leading regex whitespace. -/
def eatWs (l : List Char) : List Char :=
  l.dropWhile isWs

/-- `['"]?`: the optional quote (a forced choice, see above). -/
def eatOptQuote : List Char → List Char
  | c :: cs => if isQuote c then cs else c :: cs
  | [] => []

/-- A literal atom. -/
def eatLit (lit l : List Char) : Option (List Char) :=
  if lit.isPrefixOf l then some (l.drop lit.length) else none

/-- A single-character literal atom. -/
def eatChar (c : Char) : List Char → Option (List Char)
  | x :: xs => if x = c then some xs else none
  | [] => none

/-- `['"]?workspace['"]?\s*=\s*true` anchored at the head of `l`
(the shared core of WORKSPACE_KEY and the inherited-dependency
regexes); returns the rest after `true`. -/
def workspaceKeyAt (l : List Char) : Option (List Char) := do
  let r ← eatLit "workspace".data (eatOptQuote l)
  let r ← eatChar '=' (eatWs (eatOptQuote r))
  eatLit "true".data (eatWs r)

/-- WORKSPACE_KEY (utils/cargo.rs): unanchored search for
`['"]?workspace['"]?\s*=\s*true`. -/
def containsWorkspaceKey : List Char → Bool
  | [] => false
  | c :: cs => (workspaceKeyAt (c :: cs)).isSome || containsWorkspaceKey cs

/-- NAME / VERSION / PACKAGE (utils/cargo.rs): the key-value capture
`^(\s*['"]?KEY['"]?\s*=\s*['"])(VAL+)(['"].*)$` with `KEY` a fixed word
and `VAL` the value class; returns (prefix, value, suffix) where the
prefix ends with the opening quote and the suffix starts with the
closing quote. -/
def kvCapture (key : List Char) (val : Char → Bool) (l : List Char) :
    Option (List Char × List Char × List Char) :=
  match parseNameHead l with
  | some (h, nm, r) =>
    if nm = key then
      match parseEq r with
      | some (e, r2) =>
        match r2 with
        | q :: r3 =>
          if isQuote q then
            let content := r3.takeWhile val
            let r4 := r3.dropWhile val
            if content = [] then none
            else
              match r4 with
              | q2 :: _ => if isQuote q2 then some (h ++ e ++ [q], content, r4) else none
              | [] => none
          else none
        | [] => none
      | none => none
    else none
  | none => none

/-- DEP_DIRECT_VERSION (utils/cargo.rs):
`^(\s*['"]?([0-9A-Za-z-_]+)['"]?\s*=\s*['"])([^'"]+)(['"].*)$`;
returns (prefix, dependency name, requirement, suffix). -/
def depDirectVersion (l : List Char) :
    Option (List Char × List Char × List Char × List Char) :=
  match parseNameHead l with
  | some (h, nm, r) =>
    match parseEq r with
    | some (e, r2) =>
      match r2 with
      | q :: r3 =>
        if isQuote q then
          let content := r3.takeWhile isNonQuote
          let r4 := r3.dropWhile isNonQuote
          if content = [] then none
          else
            match r4 with
            | _ :: _ => some (h ++ e ++ [q], nm, content, r4)
            | [] => none
        else none
      | [] => none
    | none => none
  | none => none

/-- DEP_DIRECT_NAME (utils/cargo.rs):
`^(\s*['"]?([0-9A-Za-z-_]+)['"]?\s*=\s*)(['"][^'"]+['"])(.*)$`;
returns (prefix, dependency name, quoted value, suffix). -/
def depDirectName (l : List Char) :
    Option (List Char × List Char × List Char × List Char) :=
  match parseNameHead l with
  | some (h, nm, r) =>
    match parseEq r with
    | some (e, r2) =>
      match r2 with
      | q :: r3 =>
        if isQuote q then
          let content := r3.takeWhile isNonQuote
          let r4 := r3.dropWhile isNonQuote
          if content = [] then none
          else
            match r4 with
            | q2 :: r5 => some (h ++ e, nm, q :: content ++ [q2], r5)
            | [] => none
        else none
      | [] => none
    | none => none
  | none => none

/-- DEP_DIRECT_INHERITED (utils/cargo.rs):
`^\s*['"]?([0-9A-Za-z-_]+)['"]?\s*\.\s*['"]?workspace['"]?\s*=\s*true\s*.*$`;
returns the captured dependency name. -/
def depDirectInherited (l : List Char) : Option (List Char) :=
  match parseNameHead l with
  | some (_, nm, r) =>
    match eatChar '.' (eatWs r) with
    | some r2 =>
      match workspaceKeyAt (eatWs r2) with
      | some _ => some nm
      | none => none
    | none => none
  | none => none

/-- Tail search of DEP_OBJ_INHERITED after the opening brace:
`.*['"]?workspace['"]?\s*=\s*true\s*.*}`. -/
def objInheritedTail : List Char → Bool
  | [] => false
  | c :: cs =>
    (match workspaceKeyAt (c :: cs) with
     | some r => r.contains '\x7d'
     | none => false) || objInheritedTail cs

/-- DEP_OBJ_INHERITED (utils/cargo.rs):
`^\s*['"]?([0-9A-Za-z-_]+)['"]?\s*=\s*\{.*['"]?workspace['"]?\s*=\s*true\s*.*}.*$`;
returns the captured dependency name. -/
def depObjInherited (l : List Char) : Option (List Char) :=
  match parseNameHead l with
  | some (_, nm, r) =>
    match parseEq r with
    | some (_, r2) =>
      match r2 with
      | '\x7b' :: t => if objInheritedTail t then some nm else none
      | _ => none
    | none => none
  | none => none

/-- All decompositions `l = pre ++ suf`, shortest prefix first. -/
def splits : List Char → List (List Char × List Char)
  | [] => [([], [])]
  | c :: cs => ([], c :: cs) :: (splits cs).map (fun p => (c :: p.1, p.2))

/-- `['"]?KEY['"]?\s*=\s*['"]` anchored at the head: returns (consumed
text including the opening value quote, rest). -/
def keyEqQuoteAt (key : List Char) (l : List Char) : Option (List Char × List Char) :=
  let (oq, r1) :=
    match l with
    | c :: cs => if isQuote c then ([c], cs) else ([], l)
    | [] => ([], l)
  match eatLit key r1 with
  | some r2 =>
    let (cq, r3) :=
      match r2 with
      | c :: cs => if isQuote c then ([c], cs) else ([], r2)
      | [] => ([], r2)
    let ws1 := r3.takeWhile isWs
    match r3.dropWhile isWs with
    | '=' :: r5 =>
      let ws2 := r5.takeWhile isWs
      match r5.dropWhile isWs with
      | q :: r7 =>
        if isQuote q then
          some (oq ++ key ++ cq ++ ws1 ++ '=' :: ws2 ++ [q], r7)
        else none
      | [] => none
    | _ => none
  | none => none

/-- DEP_OBJ_VERSION (utils/cargo.rs):
`^(\s*['"]?([0-9A-Za-z-_]+)['"]?\s*=\s*\{.*['"]?version['"]?\s*=\s*['"])([^'"]+)(['"].*}.*)$`;
the greedy `.*` picks the last viable `version` key.  Returns
(prefix, dependency name, requirement, suffix). -/
def depObjVersion (l : List Char) :
    Option (List Char × List Char × List Char × List Char) :=
  match parseNameHead l with
  | some (h, nm, r) =>
    match parseEq r with
    | some (e, r2) =>
      match r2 with
      | '\x7b' :: t =>
        (splits t).reverse.findSome? (fun pq =>
          match keyEqQuoteAt "version".data pq.2 with
          | some (k, rest) =>
            let content := rest.takeWhile isNonQuote
            let g4 := rest.dropWhile isNonQuote
            if content = [] then none
            else
              match g4 with
              | _ :: g4r =>
                if g4r.contains '\x7d' then
                  some (h ++ e ++ '\x7b' :: pq.1 ++ k, nm, content, g4)
                else none
              | [] => none
          | none => none)
      | _ => none
    | none => none
  | none => none

/-- The `['"]?package['"]?\s*=\s*['"]([0-9A-Za-z-_]+)['"]` core used by
the rename regexes: returns (consumed text, captured package name,
rest after the closing quote, the closing quote character). -/
def packageNameAt (l : List Char) : Option (List Char × List Char × List Char × Char) :=
  match keyEqQuoteAt "package".data l with
  | some (k, rest) =>
    let nm := rest.takeWhile isWordChar
    let r2 := rest.dropWhile isWordChar
    if nm = [] then none
    else
      match r2 with
      | q :: r3 => if isQuote q then some (k, nm, r3, q) else none
      | [] => none
  | none => none

/-- DEP_OBJ_RENAME_VERSION (utils/cargo.rs):
`^(\s*['"]?([0-9A-Za-z-_]+)['"]?\s*=\s*\{.*['"]?version['"]?\s*=\s*['"])([^'"]+)(['"].*['"]?package['"]?\s*=\s*['"]([0-9A-Za-z-_]+)['"].*}.*)$`;
returns (prefix, dependency name, requirement, suffix, package name). -/
def depObjRenameVersion (l : List Char) :
    Option (List Char × List Char × List Char × List Char × List Char) :=
  match parseNameHead l with
  | some (h, nm, r) =>
    match parseEq r with
    | some (e, r2) =>
      match r2 with
      | '\x7b' :: t =>
        (splits t).reverse.findSome? (fun pq =>
          match keyEqQuoteAt "version".data pq.2 with
          | some (k, rest) =>
            let content := rest.takeWhile isNonQuote
            let g4 := rest.dropWhile isNonQuote
            if content = [] then none
            else
              match g4 with
              | q2 :: g4r =>
                match (splits g4r).reverse.findSome? (fun pq2 =>
                  match packageNameAt pq2.2 with
                  | some (_, pname, r3, _) =>
                    if r3.contains '\x7d' then some pname else none
                  | none => none) with
                | some pname =>
                  some (h ++ e ++ '\x7b' :: pq.1 ++ k, nm, content, q2 :: g4r, pname)
                | none => none
              | [] => none
          | none => none)
      | _ => none
    | none => none
  | none => none

/-- DEP_OBJ_RENAME_BEFORE_VERSION (utils/cargo.rs):
`^(\s*['"]?[0-9A-Za-z-_]+['"]?\s*=\s*\{.*['"]?package['"]?\s*=\s*['"]([0-9A-Za-z-_]+)['"].*['"]?version['"]?\s*=\s*['"])([^'"]+)(['"].*}.*)$`;
returns (prefix, package name, requirement, suffix). -/
def depObjRenameBeforeVersion (l : List Char) :
    Option (List Char × List Char × List Char × List Char) :=
  match parseNameHead l with
  | some (h, _, r) =>
    match parseEq r with
    | some (e, r2) =>
      match r2 with
      | '\x7b' :: t =>
        (splits t).reverse.findSome? (fun pq =>
          match packageNameAt pq.2 with
          | some (k, pname, r3, q) =>
            (splits r3).reverse.findSome? (fun pq2 =>
              match keyEqQuoteAt "version".data pq2.2 with
              | some (k2, rest) =>
                let content := rest.takeWhile isNonQuote
                let g4 := rest.dropWhile isNonQuote
                if content = [] then none
                else
                  match g4 with
                  | _ :: g4r =>
                    if g4r.contains '\x7d' then
                      some (h ++ e ++ '\x7b' :: pq.1 ++ k ++ pname ++ q :: pq2.1 ++ k2,
                        pname, content, g4)
                    else none
                  | [] => none
              | none => none)
          | none => none)
      | _ => none
    | none => none
  | none => none

/-- DEP_OBJ_RENAME_NAME (utils/cargo.rs):
`^(\s*['"]?[0-9A-Za-z-_]+['"]?\s*=\s*\{.*['"]?package['"]?\s*=\s*['"])([0-9A-Za-z-_]+)(['"].*}.*)$`;
returns (prefix, package name, suffix). -/
def depObjRenameName (l : List Char) :
    Option (List Char × List Char × List Char) :=
  match parseNameHead l with
  | some (h, _, r) =>
    match parseEq r with
    | some (e, r2) =>
      match r2 with
      | '\x7b' :: t =>
        (splits t).reverse.findSome? (fun pq =>
          match packageNameAt pq.2 with
          | some (k, pname, r3, q) =>
            if r3.contains '\x7d' then
              some (h ++ e ++ '\x7b' :: pq.1 ++ k, pname, q :: r3)
            else none
          | none => none)
      | _ => none
    | none => none
  | none => none

/-- DEP_OBJ_NAME (utils/cargo.rs):
`^(\s*['"]?([0-9A-Za-z-_]+)['"]?\s*=\s*\{(.*[^\s])?)(\s*}.*)$`;
the greedy optional group runs to the last `}`.  Returns
(prefix, dependency name, inner content, suffix). -/
def depObjName (l : List Char) :
    Option (List Char × List Char × List Char × List Char) :=
  match parseNameHead l with
  | some (h, nm, r) =>
    match parseEq r with
    | some (e, r2) =>
      match r2 with
      | '\x7b' :: t =>
        let rev := t.reverse
        let post := rev.takeWhile (fun c => c ≠ '\x7d')
        match rev.drop post.length with
        | '\x7d' :: beforeRev =>
          let wsGapRev := beforeRev.takeWhile isWs
          let contentRev := beforeRev.dropWhile isWs
          some (h ++ e ++ '\x7b' :: contentRev.reverse, nm, contentRev.reverse,
            wsGapRev.reverse ++ '\x7d' :: post.reverse)
        | _ => none
      | _ => none
    | none => none
  | none => none

/-! ## Table-header classification (utils/cargo.rs regexes) -/

/-- The `'?([^']+)'?\.SUFFIX` part of the target-conditioned table
headers, searched over every split of the body (the regex's greedy
`[^']+` with backtracking). -/
def targetScan (suffix : List Char) : List Char → Bool
  | [] => false
  | c :: cs =>
    if c = '\x27' then false
    else
      ('\x27' :: '.' :: suffix).isPrefixOf cs || ('.' :: suffix).isPrefixOf cs ||
        targetScan suffix cs

/-- `target\.'?([^']+)'?\.SUFFIX` after the opening bracket. -/
def targetHeader (suffix : List Char) (l : List Char) : Bool :=
  match eatLit "[target.".data l with
  | some r =>
    match r with
    | c :: cs => if c = '\x27' then targetScan suffix cs else targetScan suffix r
    | [] => false
  | none => false

/-- PACKAGE_TABLE: `^\[(workspace\.)?package]`. -/
def packageTableHeader (trimmed : List Char) : Bool :=
  ("[package]".data).isPrefixOf trimmed || ("[workspace.package]".data).isPrefixOf trimmed

/-- DEP_TABLE: `^\[(target\.'?([^']+)'?\.|workspace\.)?dependencies]`. -/
def depTableHeader (trimmed : List Char) : Bool :=
  ("[dependencies]".data).isPrefixOf trimmed ||
    ("[workspace.dependencies]".data).isPrefixOf trimmed ||
    targetHeader "dependencies]".data trimmed

/-- BUILD_DEP_TABLE: `^\[(target\.'?([^']+)'?\.)?build-dependencies]`. -/
def buildDepTableHeader (trimmed : List Char) : Bool :=
  ("[build-dependencies]".data).isPrefixOf trimmed ||
    targetHeader "build-dependencies]".data trimmed

/-- DEV_DEP_TABLE: `^\[(target\.'?([^']+)'?\.)?dev-dependencies]`. -/
def devDepTableHeader (trimmed : List Char) : Bool :=
  ("[dev-dependencies]".data).isPrefixOf trimmed ||
    targetHeader "dev-dependencies]".data trimmed

/-- The `NAME]` tail of the sub-table headers. -/
def entryName (r : List Char) : Option (List Char) :=
  let nm := r.takeWhile isWordChar
  if nm = [] then none
  else
    match r.dropWhile isWordChar with
    | ']' :: _ => some nm
    | _ => none

/-- DEP_ENTRY: `^\[(?:workspace\.)?dependencies\.([0-9A-Za-z-_]+)]`. -/
def depEntryHeader (trimmed : List Char) : Option (List Char) :=
  match eatLit "[dependencies.".data trimmed with
  | some r => entryName r
  | none =>
    match eatLit "[workspace.dependencies.".data trimmed with
    | some r => entryName r
    | none => none

/-- BUILD_DEP_ENTRY: `^\[build-dependencies\.([0-9A-Za-z-_]+)]`. -/
def buildDepEntryHeader (trimmed : List Char) : Option (List Char) :=
  match eatLit "[build-dependencies.".data trimmed with
  | some r => entryName r
  | none => none

/-- DEV_DEP_ENTRY: `^\[dev-dependencies\.([0-9A-Za-z-_]+)]`. -/
def devDepEntryHeader (trimmed : List Char) : Option (List Char) :=
  match eatLit "[dev-dependencies.".data trimmed with
  | some r => entryName r
  | none => none

/-! ## The line scanner (utils/cargo.rs `parse`) -/

/-- `Context` (utils/cargo.rs). -/
inductive Context where
  | beginning
  | package
  | dependencies
  | dependencyEntry (dep : List Char) (meta : Option (Nat × List Char)) (inherits : Bool)
  | dontCare
  deriving Repr

/-- The running state of `parse`: current context, the output lines
built so far, and the inherited set threaded through the callbacks (the
`Rc<RefCell<HashSet>>` of `change_versions`; unused by
`rename_packages`). -/
structure ScanState where
  ctx : Context
  out : List (List Char)
  inherited : List (List Char)

/-- The four callbacks of `parse`, with the shared mutable state made
explicit: `package_f` and `dependencies_f` receive and return the
output-line vector (and, for `dependencies_f`, the inherited set);
`dependency_entries_f` reports (inherits, new dep name, recorded line);
`dependency_pkg_f` finalizes a dependency sub-table. -/
structure ParseFns where
  packageF : List Char → List (List Char) → Except Unit (List (List Char))
  dependenciesF : List Char → List (List Char) → List (List Char) →
    Except Unit (List (List Char) × List (List Char))
  dependencyEntriesF : List Char → Bool × Option (List Char) × Option (List Char)
  dependencyPkgF : List Char → Option (Nat × List Char) → List (List Char) → Bool →
    List (List Char) → Except Unit (List (List Char) × List (List Char))

/-- The header-classification chain of `parse` (the if/else-if ladder
over PACKAGE_TABLE, DEP_TABLE, BUILD_DEP_TABLE, DEV_DEP_TABLE,
DEP_ENTRY, BUILD_DEP_ENTRY, DEV_DEP_ENTRY and the bare `[` fallback),
returning `none` when the line is no header and the current context's
callback runs instead. -/
def classify (devDeps : Bool) (trimmed : List Char) : Option Context :=
  if packageTableHeader trimmed then some .package
  else if depTableHeader trimmed then some .dependencies
  else if buildDepTableHeader trimmed then some .dependencies
  else if devDepTableHeader trimmed then
    some (if devDeps then .dependencies else .dontCare)
  else
    match depEntryHeader trimmed with
    | some nm => some (.dependencyEntry nm none false)
    | none =>
      match buildDepEntryHeader trimmed with
      | some nm => some (.dependencyEntry nm none false)
      | none =>
        match devDepEntryHeader trimmed with
        | some nm =>
          some (if devDeps then .dependencyEntry nm none false else .dontCare)
        | none =>
          if trimmed.head? = some '[' then some .dontCare else none

/-- The flush-on-new-table step at the top of the line loop of
`parse`: when the line opens a bracketed table and a dependency
sub-table is pending, run `dependency_pkg_f` (which may append a
missing line or overwrite the recorded version line). -/
def scanFlush (fns : ParseFns) (st : ScanState) (trimmed : List Char) :
    Except Unit ScanState :=
  if trimmed.head? = some '[' then
    match st.ctx with
    | .dependencyEntry dep meta inherits =>
      match fns.dependencyPkgF dep meta st.out inherits st.inherited with
      | .ok (nl, inh) => .ok ⟨.dependencyEntry dep none inherits, nl, inh⟩
      | .error e => .error e
    | _ => .ok st
  else .ok st

/-- One iteration of the line loop of `parse`: flush a pending
dependency sub-table when the line opens a new bracketed table, then
classify the line or run the current context's callback, and push the
original line when the callback produced no replacement. -/
def scanStep (fns : ParseFns) (devDeps : Bool) (st : ScanState) (line : List Char) :
    Except Unit ScanState :=
  let trimmed := trimL line
  match scanFlush fns st trimmed with
  | .error e => .error e
  | .ok st =>
    match classify devDeps trimmed with
    | some ctx2 => .ok { st with ctx := ctx2, out := st.out ++ [line] }
    | none =>
      match st.ctx with
      | .package =>
        match fns.packageF line st.out with
        | .ok nl =>
          .ok { st with out := if nl.length = st.out.length then nl ++ [line] else nl }
        | .error e => .error e
      | .dependencies =>
        match fns.dependenciesF line st.out st.inherited with
        | .ok (nl, inh) =>
          .ok { st with out := if nl.length = st.out.length then nl ++ [line] else nl,
                        inherited := inh }
        | .error e => .error e
      | .dependencyEntry dep meta inherits =>
        match fns.dependencyEntriesF line with
        | (inh2, newDep, lineMeta) =>
          .ok { ctx := Context.dependencyEntry (newDep.getD dep)
                  (match lineMeta with
                   | some m => some (st.out.length, m)
                   | none => meta)
                  (inherits || inh2),
                out := st.out ++ [line],
                inherited := st.inherited }
      | _ => .ok { st with out := st.out ++ [line] }

/-- The for-loop of `parse` over the lines (early exit on the first
callback error, as the source's `?` operators do). -/
def scanFold (fns : ParseFns) (devDeps : Bool) :
    ScanState → List (List Char) → Except Unit ScanState
  | st, [] => .ok st
  | st, l :: ls =>
    match scanStep fns devDeps st l with
    | .ok st2 => scanFold fns devDeps st2 ls
    | .error e => .error e

/-- `parse` (utils/cargo.rs) on the line list: fold the scanner over
the lines and flush a dependency sub-table left open at end of input. -/
def parseLines (fns : ParseFns) (devDeps : Bool) (lines : List (List Char)) :
    Except Unit (List (List Char) × List (List Char)) :=
  match scanFold fns devDeps ⟨.beginning, [], []⟩ lines with
  | .ok st =>
    (match st.ctx with
     | .dependencyEntry dep meta inherits =>
       fns.dependencyPkgF dep meta st.out inherits st.inherited
     | _ => .ok (st.out, st.inherited))
  | .error e => .error e

/-- `parse` (utils/cargo.rs) on the document text: split with
`str::lines`, scan, and rejoin with CRLF when the input contains a CRLF
and LF otherwise. -/
def parseManifest (fns : ParseFns) (devDeps : Bool) (manifest : List Char) :
    Except Unit (List Char × List (List Char)) :=
  match parseLines fns devDeps (rustLines manifest) with
  | .ok (lines, inh) => .ok (List.intercalate (lineSep manifest) lines, inh)
  | .error e => .error e

/-! ## change_versions (utils/cargo.rs) -/

/-- `HashSet::insert` on the inherited set (membership only; the set is
unordered in the source). -/
def setInsert (s : List (List Char)) (x : List Char) : List (List Char) :=
  if x ∈ s then s else s ++ [x]

/-- `edit_version` (utils/cargo.rs): when the dependency has a new
version, pin it literally under `exact`, otherwise rewrite only when
the present requirement no longer matches.  `reqMatches` abstracts
`VersionReq::parse` followed by `matches` (the semver crate); a parse
failure aborts the whole rewrite, as the source's `?` does. -/
def editVersion (g1 req g4 key : List Char) (newLines : List (List Char))
    (versions : List Char → Option Version) (exact : Bool)
    (reqMatches : List Char → Option (Version → Bool)) :
    Except Unit (List (List Char)) :=
  match versions key with
  | some nv =>
    if exact then .ok (newLines ++ [g1 ++ '=' :: versionChars nv ++ g4])
    else
      match reqMatches req with
      | some f =>
        if f nv then .ok newLines
        else .ok (newLines ++ [g1 ++ versionChars nv ++ g4])
      | none => .error ()
  | none => .ok newLines

/-- The callback bundle `change_versions` passes to `parse`
(utils/cargo.rs lines 395-481), branch for branch. -/
def cvFns (pkgName : List Char) (versions : List Char → Option Version) (exact : Bool)
    (reqMatches : List Char → Option (Version → Bool)) : ParseFns where
  packageF := fun line nl =>
    match versions pkgName with
    | some nv =>
      match kvCapture "version".data isNonQuote line with
      | some (g1, _, g3) => .ok (nl ++ [g1 ++ versionChars nv ++ g3])
      | none => .ok nl
    | none => .ok nl
  dependenciesF := fun line nl inh =>
    match depDirectInherited line with
    | some nm => .ok (nl, setInsert inh nm)
    | none =>
      match depObjInherited line with
      | some nm => .ok (nl, setInsert inh nm)
      | none =>
        match depDirectVersion line with
        | some (g1, nm, req, g4) =>
          (editVersion g1 req g4 nm nl versions exact reqMatches).map (fun l => (l, inh))
        | none =>
          match depObjRenameVersion line with
          | some (g1, _, req, g4, pname) =>
            (editVersion g1 req g4 pname nl versions exact reqMatches).map (fun l => (l, inh))
          | none =>
            match depObjRenameBeforeVersion line with
            | some (g1, pname, req, g4) =>
              (editVersion g1 req g4 pname nl versions exact reqMatches).map (fun l => (l, inh))
            | none =>
              match depObjVersion line with
              | some (g1, nm, req, g4) =>
                (editVersion g1 req g4 nm nl versions exact reqMatches).map (fun l => (l, inh))
              | none =>
                match depObjName line with
                | some (g1, nm, _, g4) =>
                  match versions nm with
                  | some nv =>
                    if exact then
                      .ok (nl ++ [g1 ++ ", version = \x22=".data ++ versionChars nv
                        ++ '\x22' :: g4], inh)
                    else
                      .ok (nl ++ [g1 ++ ", version = \x22".data ++ versionChars nv
                        ++ '\x22' :: g4], inh)
                  | none => .ok (nl, inh)
                | none => .ok (nl, inh)
  dependencyEntriesF := fun line =>
    if containsWorkspaceKey line then (true, none, none)
    else
      match kvCapture "package".data isWordChar line with
      | some (_, value, _) => (false, some value, none)
      | none =>
        if (kvCapture "version".data isNonQuote line).isSome then (false, none, some line)
        else (false, none, none)
  dependencyPkgF := fun dep meta nl inherits inh =>
    if inherits then .ok (nl, setInsert inh dep)
    else
      match meta with
      | some (i, line) =>
        match nl.get? i, kvCapture "version".data isNonQuote line, versions dep with
        | some _, some (g1, req, g3), some nv =>
          if exact then .ok (nl.set i (g1 ++ '=' :: versionChars nv ++ g3), inh)
          else
            match reqMatches req with
            | some f =>
              if f nv then .ok (nl, inh)
              else .ok (nl.set i (g1 ++ versionChars nv ++ g3), inh)
            | none => .error ()
        | _, _, _ => .ok (nl, inh)
      | none =>
        match versions dep with
        | some nv => .ok (nl ++ ["version = \x22".data ++ versionChars nv ++ ['\x22']], inh)
        | none => .ok (nl, inh)

/-- `change_versions` (utils/cargo.rs) on the line list (`parse` is
called with dev_deps = false). -/
def changeVersionsLines (pkgName : List Char) (versions : List Char → Option Version)
    (exact : Bool) (reqMatches : List Char → Option (Version → Bool))
    (lines : List (List Char)) : Except Unit (List (List Char) × List (List Char)) :=
  parseLines (cvFns pkgName versions exact reqMatches) false lines

/-- `change_versions` (utils/cargo.rs) on the document text. -/
def changeVersions (pkgName : List Char) (versions : List Char → Option Version)
    (exact : Bool) (reqMatches : List Char → Option (Version → Bool))
    (manifest : List Char) : Except Unit (List Char × List (List Char)) :=
  parseManifest (cvFns pkgName versions exact reqMatches) false manifest

/-! ## rename_packages (utils/cargo.rs) -/

/-- The callback bundle `rename_packages` passes to `parse`
(utils/cargo.rs lines 325-393), branch for branch.  The source reads
`&caps[3]` of DEP_OBJ_NAME, the optional inner group; it is modelled as
the (possibly empty) inner content. -/
def rnFns (pkgName : List Char) (renames : List Char → Option (List Char)) : ParseFns where
  packageF := fun line nl =>
    match renames pkgName with
    | some nn =>
      match kvCapture "name".data isWordChar line with
      | some (g1, _, g3) => .ok (nl ++ [g1 ++ nn ++ g3])
      | none => .ok nl
    | none => .ok nl
  dependenciesF := fun line nl inh =>
    match depDirectName line with
    | some (g1, nm, g3, g4) =>
      match renames nm with
      | some nn =>
        .ok (nl ++ [g1 ++ "\x7b version = ".data ++ g3 ++ ", package = \x22".data
          ++ nn ++ "\x22 \x7d".data ++ g4], inh)
      | none => .ok (nl, inh)
    | none =>
      match depObjRenameName line with
      | some (g1, pname, g3) =>
        match renames pname with
        | some nn => .ok (nl ++ [g1 ++ nn ++ g3], inh)
        | none => .ok (nl, inh)
      | none =>
        match depObjName line with
        | some (g1, nm, inner, g4) =>
          match renames nm with
          | some nn =>
            if containsWorkspaceKey inner then .ok (nl, inh)
            else .ok (nl ++ [g1 ++ ", package = \x22".data ++ nn ++ '\x22' :: g4], inh)
          | none => .ok (nl, inh)
        | none => .ok (nl, inh)
  dependencyEntriesF := fun line =>
    if (kvCapture "package".data isWordChar line).isSome then (false, none, some line)
    else (false, none, none)
  dependencyPkgF := fun dep meta nl _ inh =>
    match meta with
    | some (i, line) =>
      match nl.get? i, kvCapture "package".data isWordChar line with
      | some _, some (g1, pname, g3) =>
        match renames pname with
        | some nn => .ok (nl.set i (g1 ++ nn ++ g3), inh)
        | none => .ok (nl, inh)
      | _, _ => .ok (nl, inh)
    | none =>
      match renames dep with
      | some nn => .ok (nl ++ ["package = \x22".data ++ nn ++ ['\x22']], inh)
      | none => .ok (nl, inh)

/-- `rename_packages` (utils/cargo.rs) on the line list (`parse` is
called with dev_deps = true). -/
def renamePackagesLines (pkgName : List Char) (renames : List Char → Option (List Char))
    (lines : List (List Char)) : Except Unit (List (List Char) × List (List Char)) :=
  parseLines (rnFns pkgName renames) true lines

/-- `rename_packages` (utils/cargo.rs) on the document text. -/
def renamePackages (pkgName : List Char) (renames : List Char → Option (List Char))
    (manifest : List Char) : Except Unit (List Char × List (List Char)) :=
  parseManifest (rnFns pkgName renames) true manifest

/-! ## Theorems -/

theorem dagPost_rfl {pkgs : List Package} {v : List String} : DagPost pkgs v v :=
  ⟨⟨[], by simp⟩, fun x hx => Or.inl hx⟩

theorem dagPost_trans {pkgs : List Package} {v v' v'' : List String}
    (h1 : DagPost pkgs v v') (h2 : DagPost pkgs v' v'') : DagPost pkgs v v'' := by
  obtain ⟨⟨t1, ht1⟩, hm1⟩ := h1
  obtain ⟨⟨t2, ht2⟩, hm2⟩ := h2
  refine ⟨⟨t1 ++ t2, by rw [ht2, ht1, List.append_assoc]⟩, fun x hx => ?_⟩
  rcases hm2 x hx with hx' | hc
  · exact hm1 x hx'
  · exact Or.inr hc

theorem mem_of_dagPost {pkgs : List Package} {v v' : List String} {x : String}
    (h : DagPost pkgs v v') (hx : x ∈ v) : x ∈ v' := by
  obtain ⟨⟨t, ht⟩, -⟩ := h
  rw [ht]
  exact List.mem_append_left _ hx

theorem indexOf_of_dagPost {pkgs : List Package} {v v' : List String} {x : String}
    (h : DagPost pkgs v v') (hx : x ∈ v) : v'.indexOf x = v.indexOf x := by
  obtain ⟨⟨t, ht⟩, -⟩ := h
  rw [ht]
  exact List.indexOf_append_of_mem hx

theorem dagDeps_post_aux {pkgs : List Package} (hinj : PathInj pkgs) (fuel : Nat)
    (ih : ∀ pkg ∈ pkgs, ∀ v v', dagInsert pkgs fuel pkg v = some v' →
      DagPost pkgs v v' ∧ pkg.manifestPath ∈ v' ∧ (DagInv pkgs v → DagInv pkgs v')) :
    ∀ deps v v', dagDeps pkgs fuel deps v = some v' →
      DagPost pkgs v v' ∧ (DagInv pkgs v → DagInv pkgs v') ∧
      ∀ d ∈ deps, (d.kind = .normal ∨ d.kind = .build) →
        ∀ q, pkgs.find? (fun x => d.name = x.name) = some q → q.manifestPath ∈ v' := by
  intro deps
  induction deps with
  | nil =>
    intro v v' h
    simp only [dagDeps] at h
    cases h
    exact ⟨dagPost_rfl, id, by simp⟩
  | cons d rest ihrest =>
    intro v v' h
    rw [dagDeps] at h
    cases hfind : pkgs.find? (fun p => d.name = p.name) with
    | none =>
      rw [hfind] at h
      dsimp only at h
      obtain ⟨hpost, hinv, hdeps⟩ := ihrest v v' h
      refine ⟨hpost, hinv, ?_⟩
      intro d' hd' hk q hq
      rcases List.mem_cons.mp hd' with hd' | hd'
      · subst hd'
        rw [hfind] at hq
        cases hq
      · exact hdeps d' hd' hk q hq
    | some dep =>
      rw [hfind] at h
      dsimp only at h
      have hdepmem : dep ∈ pkgs := List.mem_of_find?_eq_some hfind
      have hskip : ¬(d.kind = .normal ∨ d.kind = .build) →
          dagDeps pkgs fuel rest v = some v' →
          DagPost pkgs v v' ∧ (DagInv pkgs v → DagInv pkgs v') ∧
          ∀ d' ∈ d :: rest, (d'.kind = .normal ∨ d'.kind = .build) →
            ∀ q, pkgs.find? (fun x => d'.name = x.name) = some q →
              q.manifestPath ∈ v' := by
        intro hnk h'
        obtain ⟨hpost, hinv, hdeps⟩ := ihrest v v' h'
        refine ⟨hpost, hinv, ?_⟩
        intro d' hd' hk q hq
        rcases List.mem_cons.mp hd' with hd' | hd'
        · subst hd'
          exact absurd hk hnk
        · exact hdeps d' hd' hk q hq
      have hrec : (match dagInsert pkgs fuel dep v with
            | some u => dagDeps pkgs fuel rest u
            | none => none) = some v' →
          DagPost pkgs v v' ∧ (DagInv pkgs v → DagInv pkgs v') ∧
          ∀ d' ∈ d :: rest, (d'.kind = .normal ∨ d'.kind = .build) →
            ∀ q, pkgs.find? (fun x => d'.name = x.name) = some q →
              q.manifestPath ∈ v' := by
        intro h'
        cases hins : dagInsert pkgs fuel dep v with
        | none => rw [hins] at h'; cases h'
        | some u =>
          rw [hins] at h'
          dsimp only at h'
          obtain ⟨hpost1, hdepin, hinv1⟩ := ih dep hdepmem v u hins
          obtain ⟨hpost2, hinv2, hdeps⟩ := ihrest u v' h'
          refine ⟨dagPost_trans hpost1 hpost2, fun h0 => hinv2 (hinv1 h0), ?_⟩
          intro d' hd' hk q hq
          rcases List.mem_cons.mp hd' with hd' | hd'
          · subst hd'
            rw [hfind] at hq
            cases hq
            exact mem_of_dagPost hpost2 hdepin
          · exact hdeps d' hd' hk q hq
      rcases hkind : d.kind with _ | _ | _ | _ <;> rw [hkind] at h <;> dsimp only at h
      · exact hrec h
      · exact hrec h
      · exact hskip (by simp [hkind]) h
      · exact hskip (by simp [hkind]) h

theorem dagInsert_post {pkgs : List Package} (hinj : PathInj pkgs) :
    ∀ fuel, ∀ pkg ∈ pkgs, ∀ v v', dagInsert pkgs fuel pkg v = some v' →
      DagPost pkgs v v' ∧ pkg.manifestPath ∈ v' ∧ (DagInv pkgs v → DagInv pkgs v') := by
  intro fuel
  induction fuel with
  | zero =>
    intro pkg _ v v' h
    simp only [dagInsert] at h
    cases h
  | succ f ih =>
    intro pkg hmem v v' h
    rw [dagInsert] at h
    by_cases hv : pkg.manifestPath ∈ v
    · rw [if_pos hv] at h
      cases h
      exact ⟨dagPost_rfl, hv, id⟩
    · rw [if_neg hv] at h
      cases hdd : dagDeps pkgs f pkg.dependencies v with
      | none => rw [hdd] at h; cases h
      | some u =>
        rw [hdd] at h
        cases h
        obtain ⟨hpost, hinv, hdeps⟩ := dagDeps_post_aux hinj f ih pkg.dependencies v u hdd
        by_cases hu : pkg.manifestPath ∈ u
        · rw [indexInsert, if_pos hu]
          exact ⟨hpost, hu, hinv⟩
        · rw [indexInsert, if_neg hu]
          refine ⟨?_, ?_, ?_⟩
          · refine dagPost_trans hpost ⟨⟨[pkg.manifestPath], rfl⟩, fun x hx => ?_⟩
            rcases List.mem_append.mp hx with hx | hx
            · exact Or.inl hx
            · exact Or.inr ⟨pkg, hmem, (List.mem_singleton.mp hx).symm⟩
          · exact List.mem_append_right _ (List.mem_singleton.mpr rfl)
          · intro h0
            have hIu := hinv h0
            intro r hr hrmem d hd hkind q hq
            have hqmem : q ∈ pkgs := List.mem_of_find?_eq_some hq
            rcases List.mem_append.mp hrmem with hru | hrp
            · obtain ⟨hqin, hidx⟩ := hIu r hr hru d hd hkind q hq
              refine ⟨List.mem_append_left _ hqin, ?_⟩
              rw [List.indexOf_append_of_mem hqin, List.indexOf_append_of_mem hru]
              exact hidx
            · have hrpath : r.manifestPath = pkg.manifestPath := List.mem_singleton.mp hrp
              have hrpkg : r = pkg := hinj r hr pkg hmem hrpath
              subst hrpkg
              have hqin : q.manifestPath ∈ u := hdeps d hd hkind q hq
              refine ⟨List.mem_append_left _ hqin, ?_⟩
              rw [List.indexOf_append_of_mem hqin, hrpath,
                List.indexOf_append_of_not_mem hu]
              simp only [List.indexOf_cons_self, Nat.add_zero]
              exact List.indexOf_lt_length.mpr hqin

theorem dagDeps_some_aux {pkgs : List Package} {rank : String → Nat} (fuel : Nat)
    (ihA : ∀ pkg ∈ pkgs, rank pkg.name < fuel →
      ∀ v, ∃ v', dagInsert pkgs fuel pkg v = some v') :
    ∀ deps v,
      (∀ d ∈ deps, (d.kind = .normal ∨ d.kind = .build) →
        ∀ q, pkgs.find? (fun x => d.name = x.name) = some q → rank q.name < fuel) →
      ∃ v', dagDeps pkgs fuel deps v = some v' := by
  intro deps
  induction deps with
  | nil => intro v _; exact ⟨v, by rw [dagDeps]⟩
  | cons d rest ihrest =>
    intro v hranks
    rw [dagDeps]
    cases hfind : pkgs.find? (fun p => d.name = p.name) with
    | none => exact ihrest v (fun d' hd' => hranks d' (List.mem_cons_of_mem d hd'))
    | some dep =>
      dsimp only
      have hdepmem : dep ∈ pkgs := List.mem_of_find?_eq_some hfind
      have hrec : (d.kind = .normal ∨ d.kind = .build) →
          ∃ v', (match dagInsert pkgs fuel dep v with
                 | some u => dagDeps pkgs fuel rest u
                 | none => none) = some v' := by
        intro hk
        have hrank : rank dep.name < fuel :=
          hranks d (List.mem_cons_self d rest) hk dep hfind
        obtain ⟨u, hu⟩ := ihA dep hdepmem hrank v
        rw [hu]
        exact ihrest u (fun d' hd' => hranks d' (List.mem_cons_of_mem d hd'))
      rcases hkind : d.kind with _ | _ | _ | _ <;> dsimp only
      · exact hrec (Or.inl hkind)
      · exact hrec (Or.inr hkind)
      · exact ihrest v (fun d' hd' => hranks d' (List.mem_cons_of_mem d hd'))
      · exact ihrest v (fun d' hd' => hranks d' (List.mem_cons_of_mem d hd'))

theorem dagInsert_some {pkgs : List Package} {rank : String → Nat}
    (hacyc : RankAcyclic pkgs rank) :
    ∀ fuel, ∀ pkg ∈ pkgs, rank pkg.name < fuel →
      ∀ v, ∃ v', dagInsert pkgs fuel pkg v = some v' := by
  intro fuel
  induction fuel with
  | zero => intro pkg _ hrank; omega
  | succ f ih =>
    intro pkg hmem hrank v
    rw [dagInsert]
    by_cases hv : pkg.manifestPath ∈ v
    · rw [if_pos hv]; exact ⟨v, rfl⟩
    · rw [if_neg hv]
      have hranks : ∀ d ∈ pkg.dependencies, (d.kind = .normal ∨ d.kind = .build) →
          ∀ q, pkgs.find? (fun x => d.name = x.name) = some q → rank q.name < f := by
        intro d hd hk q hq
        have := hacyc pkg hmem d hd hk q hq
        omega
      obtain ⟨u, hu⟩ := dagDeps_some_aux f ih pkg.dependencies v hranks
      rw [hu]
      exact ⟨indexInsert u pkg.manifestPath, rfl⟩

theorem dag_fold_aux {pkgs : List Package} {rank : String → Nat} {fuel : Nat}
    (hinj : PathInj pkgs) (hacyc : RankAcyclic pkgs rank)
    (hfuel : ∀ p ∈ pkgs, rank p.name < fuel) :
    ∀ L : List Package, (∀ p ∈ L, p ∈ pkgs) → ∀ v, DagInv pkgs v →
      ∃ ω, L.foldl
          (fun acc pkg =>
            match acc with
            | some v => dagInsert pkgs fuel pkg v
            | none => none) (some v) = some ω ∧
        DagPost pkgs v ω ∧ DagInv pkgs ω ∧ ∀ p ∈ L, p.manifestPath ∈ ω := by
  intro L
  induction L with
  | nil =>
    intro _ v hv
    exact ⟨v, rfl, dagPost_rfl, hv, by simp⟩
  | cons p L' ihL =>
    intro hL v hv
    have hpmem : p ∈ pkgs := hL p (List.mem_cons_self p L')
    obtain ⟨u, hu⟩ := dagInsert_some hacyc fuel p hpmem (hfuel p hpmem) v
    obtain ⟨hpost1, hpin, hinv1⟩ := dagInsert_post hinj fuel p hpmem v u hu
    obtain ⟨ω, hω, hpost2, hinv2, hall⟩ :=
      ihL (fun q hq => hL q (List.mem_cons_of_mem p hq)) u (hinv1 hv)
    refine ⟨ω, ?_, dagPost_trans hpost1 hpost2, hinv2, ?_⟩
    · simpa [hu] using hω
    · intro q hq
      rcases List.mem_cons.mp hq with hq | hq
      · subst hq; exact mem_of_dagPost hpost2 hpin
      · exact hall q hq

/-- C4: for any rank-acyclic candidate set with injective manifest
paths and enough fuel, the dag builder succeeds and its visitation
order contains only candidate manifest paths, contains every candidate,
and places each package's in-set normal/build dependencies at strictly
smaller indices (dependencies-before-dependents). -/
theorem c4_topological_order (pkgs : List Package) (rank : String → Nat) (fuel : Nat)
    (hinj : PathInj pkgs) (hacyc : RankAcyclic pkgs rank)
    (hfuel : ∀ p ∈ pkgs, rank p.name < fuel) :
    ∃ ω, dag pkgs fuel = some ω ∧
      (∀ x ∈ ω, ∃ p ∈ pkgs, p.manifestPath = x) ∧
      (∀ p ∈ pkgs, p.manifestPath ∈ ω ∧
        ∀ d ∈ p.dependencies, (d.kind = .normal ∨ d.kind = .build) →
          ∀ q, pkgs.find? (fun x => d.name = x.name) = some q →
            ω.indexOf q.manifestPath < ω.indexOf p.manifestPath) := by
  obtain ⟨ω, hω, hpost, hinv, hall⟩ :=
    dag_fold_aux hinj hacyc hfuel pkgs (fun _ h => h) []
      (fun p _ hp => absurd hp (List.not_mem_nil _))
  refine ⟨ω, hω, fun x hx => ?_, fun p hp => ⟨hall p hp, fun d hd hk q hq => ?_⟩⟩
  · rcases hpost.2 x hx with hx' | hc
    · cases hx'
    · exact hc
  · exact (hinv p hp (hall p hp) d hd hk q hq).2

/-- Witness for C4: the two-package chain cli → core (normal
dependency) is ordered with core before cli. -/
theorem c4_topological_order_witness :
    ∃ ω, dag dagExample 2 = some ω ∧
      (∀ x ∈ ω, ∃ p ∈ dagExample, Package.manifestPath p = x) ∧
      (∀ p ∈ dagExample, Package.manifestPath p ∈ ω ∧
        ∀ d ∈ Package.dependencies p, (d.kind = .normal ∨ d.kind = .build) →
          ∀ q, List.find? (fun x => d.name = x.name) dagExample = some q →
            ω.indexOf q.manifestPath < ω.indexOf p.manifestPath) :=
  c4_topological_order dagExample (fun s => if s = "cli" then 1 else 0) 2
    (by
      intro p hp q hq
      fin_cases hp <;> fin_cases hq <;> decide)
    (by
      intro p hp d hd hk q hq
      fin_cases hp
      · fin_cases hd
        rw [show List.find? (fun x => decide
            ((⟨"core", .normal⟩ : Dependency).name = x.name)) dagExample =
            some ⟨"core", "core/Cargo.toml", []⟩ from rfl] at hq
        cases hq
        decide
      · fin_cases hd)
    (by intro p hp; fin_cases hp <;> decide)

/-- C7: bump semantics of `inc_patch` / `inc_minor` / `inc_major`:
a patch bump on a version with a non-empty prerelease strips the
prerelease (patch untouched); a minor bump on a prerelease version with
patch = 0 strips the prerelease; a major bump on a prerelease version
with minor = patch = 0 strips the prerelease; in every other case the
respective component is incremented and the lower components (and the
prerelease) are reset. -/
theorem c7_bump_semantics (v : Version) :
    (v.pre ≠ [] → incPatch v = { v with pre := [] }) ∧
    (v.pre ≠ [] ∧ v.patch = 0 → incMinor v = { v with pre := [] }) ∧
    (v.pre ≠ [] ∧ v.patch = 0 ∧ v.minor = 0 → incMajor v = { v with pre := [] }) ∧
    (v.pre = [] →
      incPatch v = { v with patch := v.patch + 1, pre := [], build := [] }) ∧
    (¬(v.pre ≠ [] ∧ v.patch = 0) →
      incMinor v = { v with minor := v.minor + 1, patch := 0, pre := [], build := [] }) ∧
    (¬(v.pre ≠ [] ∧ v.patch = 0 ∧ v.minor = 0) →
      incMajor v = { v with major := v.major + 1, minor := 0, patch := 0,
                            pre := [], build := [] }) := by
  refine ⟨fun h => ?_, fun h => ?_, fun h => ?_, fun h => ?_, fun h => ?_, fun h => ?_⟩ <;>
    simp [incPatch, incMinor, incMajor, Version.incrementPatch,
      Version.incrementMinor, Version.incrementMajor, h]

/-- Witness for C7 at concrete versions: 1.2.3-alpha patch-bumps to
1.2.3, and 1.2.3 (no prerelease) patch-bumps to 1.2.4. -/
theorem c7_bump_semantics_witness :
    incPatch ⟨1, 2, 3, [.alphaNumeric "alpha"], []⟩ = ⟨1, 2, 3, [], []⟩ ∧
    incPatch ⟨1, 2, 3, [], []⟩ = ⟨1, 2, 4, [], []⟩ :=
  ⟨(c7_bump_semantics ⟨1, 2, 3, [.alphaNumeric "alpha"], []⟩).1 (by decide),
   (c7_bump_semantics ⟨1, 2, 3, [], []⟩).2.2.2.1 rfl⟩

/-- C8 counterexample: on 1.0.0-alpha.1.5 with requested identifier
"alpha" (which equals the leading identifier), `inc_preid` does not
increment the trailing numeric component (which would give
alpha.1.6); it instead increments the numeric component directly after
the leading identifier and discards the rest, producing alpha.2. -/
theorem c8_counterexample :
    (incPreid ⟨1, 0, 0, [.alphaNumeric "alpha", .numeric 1, .numeric 5], []⟩
        (.alphaNumeric "alpha")).pre ≠
      [.alphaNumeric "alpha", .numeric 1, .numeric 6] ∧
    (incPreid ⟨1, 0, 0, [.alphaNumeric "alpha", .numeric 1, .numeric 5], []⟩
        (.alphaNumeric "alpha")).pre =
      [.alphaNumeric "alpha", .numeric 2] := by
  constructor <;> decide

/-- C8 (amended): for a version with a non-empty prerelease,
`inc_preid` leaves major/minor/patch/build unchanged and:
if the leading identifier is alphanumeric, the new prerelease is
`req.k` where k is n+1 when the leading identifier equals the requested
identifier's text and the second component is numeric n, and 0
otherwise (any components beyond the second are discarded); if the
leading identifier is numeric, a match on the requested identifier's
text increments the last numeric component of the prerelease in place,
and a mismatch resets the prerelease to `req.0`. -/
theorem c8_inc_preid_amended (v : Version) (req : Identifier) (h : v.pre ≠ []) :
    ((incPreid v req).major = v.major ∧ (incPreid v req).minor = v.minor ∧
      (incPreid v req).patch = v.patch ∧ (incPreid v req).build = v.build) ∧
    (∀ a rest, v.pre = .alphaNumeric a :: rest →
      incPreid v req =
        { v with pre := [req, .numeric (if req.str = a then
            (match rest.head? with
             | some (.numeric n) => n + 1
             | _ => 0) else 0)] }) ∧
    (∀ n rest, v.pre = .numeric n :: rest →
      incPreid v req =
        if req.str = toString n then { v with pre := incLastNumeric v.pre }
        else { v with pre := [req, .numeric 0] }) := by
  refine ⟨?_, fun a rest hpre => ?_, fun n rest hpre => ?_⟩
  · unfold incPreid
    rw [if_neg h]
    rcases hv : v.pre with _ | ⟨id, rest⟩
    · exact absurd hv h
    · cases id with
      | numeric n =>
        dsimp only
        split_ifs <;> simp
      | alphaNumeric a =>
        dsimp only
        split_ifs
        · rcases hh : rest.head? with _ | id2
          · simp [hh]
          · cases id2 <;> simp [hh]
        · simp
  · unfold incPreid
    rw [if_neg h, hpre]
    dsimp only
    split_ifs with heq
    · rcases hh : rest.head? with _ | id2
      · simp [hh]
      · cases id2 <;> simp [hh]
    · rfl
  · unfold incPreid
    rw [if_neg h, hpre]

/-- Witness for C8 (amended) at 2.1.0-beta.3 with requested identifier
"beta": the prerelease becomes beta.4 and the numeric components are
untouched. -/
theorem c8_inc_preid_amended_witness :
    incPreid ⟨2, 1, 0, [.alphaNumeric "beta", .numeric 3], []⟩ (.alphaNumeric "beta") =
      ⟨2, 1, 0, [.alphaNumeric "beta", .numeric 4], []⟩ :=
  ((c8_inc_preid_amended ⟨2, 1, 0, [.alphaNumeric "beta", .numeric 3], []⟩
      (.alphaNumeric "beta") (by decide)).2.1 "beta" [.numeric 3] rfl).trans (by decide)

/-- C1: evaluation at the failing input.  With two custom groups g1 and
g2 whose member globs both match the package path "crates/a" (and no
exclusion globs), the group-assignment loop of `get_group_packages`
silently returns the first group g1: it has no ambiguity-error outcome
at all, although the second group g2 also matches. -/
theorem c1_first_match_wins :
    (([fun p => p = "crates/a"] : List (String → Bool)).any
        (fun m => m "crates/a") = true) ∧
    assignGroupName
        ⟨none, some [⟨"g1", none, [fun p => p = "crates/a"]⟩,
                     ⟨"g2", none, [fun p => p = "crates/a"]⟩]⟩
        "crates/a" = .custom "g1" := by
  constructor
  · decide
  · rfl

/-- C3 counterexample: the group name "a b" contains whitespace, yet
configuration validation accepts it — `validate_group_name` only
rejects the separator character and the two reserved names. -/
theorem c3_counterexample :
    validateGroupName "a b" = .ok "a b" ∧ ("a b").data.contains ' ' = true := by
  constructor
  · rfl
  · decide

/-- C3 (amended): every group name accepted by configuration validation
contains no separator character and is neither of the reserved names
"default" and "excluded" (whitespace is not rejected). -/
theorem c3_accepted_names (s r : String) (h : validateGroupName s = .ok r) :
    r = s ∧ ':' ∉ s.data ∧ s ≠ "default" ∧ s ≠ "excluded" := by
  unfold validateGroupName groupNameValidate at h
  by_cases hc : ':' ∈ s.data
  · simp [hc] at h
  · have hc2 : ¬(s.data.contains ':' = true) := by simpa using hc
    rw [if_neg hc2] at h
    by_cases hd : s = "excluded" ∨ s = "default"
    · simp [hd] at h
    · rw [if_neg hd] at h
      push_neg at hd
      cases h
      exact ⟨rfl, hc, hd.2, hd.1⟩

/-- Witness for C3 (amended) at the accepted name "mygroup". -/
theorem c3_accepted_names_witness :
    "mygroup" = "mygroup" ∧ ':' ∉ ("mygroup").data ∧
      "mygroup" ≠ "default" ∧ "mygroup" ≠ "excluded" :=
  c3_accepted_names "mygroup" "mygroup" (by rfl)

theorem planLoop_nil (oracle : List PlanPkg → List (String × Version)) (fuel : Nat)
    (u : List PlanPkg) (b : List (List (String × Version))) :
    planLoop oracle fuel [] u b = some b := by
  cases fuel <;> simp [planLoop]

theorem length_filter_split {α : Type} (l : List α) (p : α → Bool) :
    (l.filter p).length + (l.filter (fun a => !p a)).length = l.length := by
  induction l with
  | nil => rfl
  | cons a t ih =>
    by_cases h : p a <;> simp [List.filter_cons, h] <;> omega

theorem pullCond_entry (nvs : List (String × Version)) (x : String × Req) :
    (match nvs.find? (fun e => x.1 = e.1) with
     | some e => (!(x.2.matchesV e.2)) || x.2.unversioned
     | none => false) = true ↔
      ∃ e, nvs.find? (fun e => x.1 = e.1) = some e ∧
        (x.2.matchesV e.2 = false ∨ x.2.unversioned = true) := by
  cases hf : nvs.find? (fun e => x.1 = e.1) with
  | none => simp
  | some e =>
    simp only [Bool.or_eq_true, Bool.not_eq_true']
    constructor
    · intro h
      exact ⟨e, rfl, h⟩
    · rintro ⟨e2, he2, h⟩
      cases he2
      exact h

/-- C9: the fixpoint propagation loop of `do_versioning` terminates
within one iteration per yet-unplanned package (so at most as many
iterations as there are packages, for any dependency shape, diamonds
included); on each iteration a yet-unplanned package is pulled exactly
when one of its declared dependency requirements no longer matches a
newly assigned version or is an unconstrained requirement toward a
package that received a new version; pulled packages never remain in
the unplanned set. -/
theorem c9_fixpoint_termination (oracle : List PlanPkg → List (String × Version)) :
    ∀ fuel (changed unchanged : List PlanPkg) (bumped : List (List (String × Version))),
      unchanged.length < fuel →
      (∃ result, planLoop oracle fuel changed unchanged bumped = some result) ∧
      (∀ p ∈ unchanged,
        pullCond (bumped ++ [oracle changed]) p.deps = true ↔
          ∃ dep ∈ p.deps, ∃ nvs ∈ bumped ++ [oracle changed], ∃ e,
            nvs.find? (fun x => dep.1 = x.1) = some e ∧
            (dep.2.matchesV e.2 = false ∨ dep.2.unversioned = true)) ∧
      (∀ p : PlanPkg, pullCond (bumped ++ [oracle changed]) p.deps = true →
        p ∉ unchanged.filter (fun q => !pullCond (bumped ++ [oracle changed]) q.deps)) := by
  have hcond : ∀ (b : List (List (String × Version))) (p : PlanPkg),
      pullCond b p.deps = true ↔
        ∃ dep ∈ p.deps, ∃ nvs ∈ b, ∃ e,
          nvs.find? (fun x => dep.1 = x.1) = some e ∧
          (dep.2.matchesV e.2 = false ∨ dep.2.unversioned = true) := by
    intro b p
    unfold pullCond
    rw [List.any_eq_true]
    constructor
    · rintro ⟨dep, hdep, hx⟩
      rw [List.any_eq_true] at hx
      obtain ⟨nvs, hnvs, hentry⟩ := hx
      obtain ⟨e, he, hcase⟩ := (pullCond_entry nvs dep).mp hentry
      exact ⟨dep, hdep, nvs, hnvs, e, he, hcase⟩
    · rintro ⟨dep, hdep, nvs, hnvs, e, he, hcase⟩
      refine ⟨dep, hdep, ?_⟩
      rw [List.any_eq_true]
      exact ⟨nvs, hnvs, (pullCond_entry nvs dep).mpr ⟨e, he, hcase⟩⟩
  intro fuel
  induction fuel with
  | zero =>
    intro changed unchanged bumped h
    exact absurd h (Nat.not_lt_zero _)
  | succ f ih =>
    intro changed unchanged bumped h
    refine ⟨?_, fun p _ => hcond _ p, ?_⟩
    · by_cases hc : changed.isEmpty
      · exact ⟨bumped, by rw [planLoop, if_pos hc]⟩
      · rw [planLoop, if_neg hc]
        by_cases hp : unchanged.filter
            (fun p => pullCond (bumped ++ [oracle changed]) p.deps) = []
        · rw [hp]
          exact ⟨bumped ++ [oracle changed], planLoop_nil oracle f _ _⟩
        · have hsplit := length_filter_split unchanged
            (fun p => pullCond (bumped ++ [oracle changed]) p.deps)
          have hpos : 0 < (unchanged.filter
              (fun p => pullCond (bumped ++ [oracle changed]) p.deps)).length :=
            List.length_pos.mpr hp
          exact (ih _ _ _ (by omega)).1
    · intro p hpull hmem
      rw [List.mem_filter] at hmem
      rw [hpull] at hmem
      exact absurd hmem.2 (by decide)

/-- Witness for C9 on the chain a → b → c with unconstrained
requirements: changed set {a}, unplanned set {b, c}, fuel 3. -/
theorem c9_fixpoint_termination_witness :
    (∃ result, planLoop planOracleEx 3 [⟨"a", []⟩] [planPkgB, planPkgC] [] = some result) ∧
    (∀ p ∈ [planPkgB, planPkgC],
      pullCond ([] ++ [planOracleEx [⟨"a", []⟩]]) p.deps = true ↔
        ∃ dep ∈ p.deps, ∃ nvs ∈ [] ++ [planOracleEx [⟨"a", []⟩]], ∃ e,
          nvs.find? (fun x => dep.1 = x.1) = some e ∧
          (dep.2.matchesV e.2 = false ∨ dep.2.unversioned = true)) ∧
    (∀ p : PlanPkg, pullCond ([] ++ [planOracleEx [⟨"a", []⟩]]) p.deps = true →
      p ∉ ([planPkgB, planPkgC]).filter
        (fun q => !pullCond ([] ++ [planOracleEx [⟨"a", []⟩]]) q.deps)) :=
  c9_fixpoint_termination planOracleEx 3 [⟨"a", []⟩] [planPkgB, planPkgC] []
    (by decide)

/-! ### C2: rewriting with no applicable edits -/

theorem cv_pkgF_empty {pkgName : List Char} {versions : List Char → Option Version}
    {exact : Bool} {reqMatches : List Char → Option (Version → Bool)}
    (hv : ∀ s, versions s = none) (line : List Char) (nl : List (List Char)) :
    (cvFns pkgName versions exact reqMatches).packageF line nl = .ok nl := by
  unfold cvFns
  simp [hv]

theorem cv_depsF_empty {pkgName : List Char} {versions : List Char → Option Version}
    {exact : Bool} {reqMatches : List Char → Option (Version → Bool)}
    (hv : ∀ s, versions s = none) (line : List Char) (nl inh : List (List Char)) :
    ∃ inh2, (cvFns pkgName versions exact reqMatches).dependenciesF line nl inh =
      .ok (nl, inh2) := by
  unfold cvFns
  dsimp only
  rcases depDirectInherited line with _ | nm
  · rcases depObjInherited line with _ | nm
    · rcases h3 : depDirectVersion line with _ | ⟨g1, nm, req, g4⟩
      · rcases h4 : depObjRenameVersion line with _ | ⟨g1, nm, req, g4, pn⟩
        · rcases h5 : depObjRenameBeforeVersion line with _ | ⟨g1, pn, req, g4⟩
          · rcases h6 : depObjVersion line with _ | ⟨g1, nm, req, g4⟩
            · rcases h7 : depObjName line with _ | ⟨g1, nm, inner, g4⟩
              · exact ⟨inh, rfl⟩
              · simp [hv]
            · simp [editVersion, hv, Except.map]
          · simp [editVersion, hv, Except.map]
        · simp [editVersion, hv, Except.map]
      · simp [editVersion, hv, Except.map]
    · exact ⟨setInsert inh nm, rfl⟩
  · exact ⟨setInsert inh nm, rfl⟩

theorem cv_flushF_empty {pkgName : List Char} {versions : List Char → Option Version}
    {exact : Bool} {reqMatches : List Char → Option (Version → Bool)}
    (hv : ∀ s, versions s = none) (dep : List Char) (meta : Option (Nat × List Char))
    (nl : List (List Char)) (inhF : Bool) (inh : List (List Char)) :
    ∃ inh2, (cvFns pkgName versions exact reqMatches).dependencyPkgF dep meta nl inhF inh =
      .ok (nl, inh2) := by
  unfold cvFns
  dsimp only
  cases inhF with
  | true => exact ⟨setInsert inh dep, rfl⟩
  | false =>
    cases meta with
    | none => simp [hv]
    | some im =>
      obtain ⟨i, line⟩ := im
      dsimp only
      rcases nl.get? i with _ | cur <;>
        rcases kvCapture "version".data isNonQuote line with _ | ⟨g1, req, g3⟩ <;>
        simp [hv]

theorem cv_flushPhase_empty {pkgName : List Char} {versions : List Char → Option Version}
    {exact : Bool} {reqMatches : List Char → Option (Version → Bool)}
    (hv : ∀ s, versions s = none) (st : ScanState) (trimmed : List Char) :
    ∃ ctx1 inh1, scanFlush (cvFns pkgName versions exact reqMatches) st trimmed =
      .ok ⟨ctx1, st.out, inh1⟩ := by
  obtain ⟨sctx, sout, sinh⟩ := st
  unfold scanFlush
  by_cases hb : trimmed.head? = some '['
  · rw [if_pos hb]
    cases sctx with
    | dependencyEntry dep meta inhF =>
      dsimp only
      obtain ⟨inh2, h2⟩ :=
        @cv_flushF_empty pkgName versions exact reqMatches hv dep meta sout inhF sinh
      rw [h2]
      exact ⟨_, _, rfl⟩
    | beginning => exact ⟨_, _, rfl⟩
    | package => exact ⟨_, _, rfl⟩
    | dependencies => exact ⟨_, _, rfl⟩
    | dontCare => exact ⟨_, _, rfl⟩
  · rw [if_neg hb]
    exact ⟨_, _, rfl⟩

theorem cv_step_empty {pkgName : List Char} {versions : List Char → Option Version}
    {exact : Bool} {reqMatches : List Char → Option (Version → Bool)}
    (hv : ∀ s, versions s = none) (st : ScanState) (line : List Char) :
    ∃ ctx2 inh2, scanStep (cvFns pkgName versions exact reqMatches) false st line =
      .ok ⟨ctx2, st.out ++ [line], inh2⟩ := by
  unfold scanStep
  obtain ⟨ctx1, inh1, hflush⟩ :=
    @cv_flushPhase_empty pkgName versions exact reqMatches hv st (trimL line)
  dsimp only
  rw [hflush]
  dsimp only
  rcases hcl : classify false (trimL line) with _ | ctx2 <;> dsimp only
  · cases ctx1 with
    | package =>
      dsimp only
      rw [@cv_pkgF_empty pkgName versions exact reqMatches hv line st.out]
      simp
    | dependencies =>
      dsimp only
      obtain ⟨inh2, h2⟩ := @cv_depsF_empty pkgName versions exact reqMatches hv line st.out inh1
      rw [h2]
      dsimp only
      exact ⟨Context.dependencies, inh2, by simp⟩
    | dependencyEntry dep meta inhF => exact ⟨_, _, rfl⟩
    | beginning => exact ⟨_, _, rfl⟩
    | dontCare => exact ⟨_, _, rfl⟩
  · exact ⟨_, _, rfl⟩

theorem cv_fold_empty {pkgName : List Char} {versions : List Char → Option Version}
    {exact : Bool} {reqMatches : List Char → Option (Version → Bool)}
    (hv : ∀ s, versions s = none) :
    ∀ (lines : List (List Char)) (st : ScanState),
      ∃ st' : ScanState,
        scanFold (cvFns pkgName versions exact reqMatches) false st lines = .ok st' ∧
          st'.out = st.out ++ lines := by
  intro lines
  induction lines with
  | nil => intro st; exact ⟨st, rfl, by simp⟩
  | cons l ls ih =>
    intro st
    obtain ⟨ctx2, inh2, hstep⟩ := cv_step_empty hv st l
    obtain ⟨st', hfold, hout⟩ := ih ⟨ctx2, st.out ++ [l], inh2⟩
    refine ⟨st', ?_, by simp [hout]⟩
    rw [scanFold, hstep]
    exact hfold

theorem cv_lines_empty {pkgName : List Char} {versions : List Char → Option Version}
    {exact : Bool} {reqMatches : List Char → Option (Version → Bool)}
    (hv : ∀ s, versions s = none) (lines : List (List Char)) :
    ∃ inh, changeVersionsLines pkgName versions exact reqMatches lines = .ok (lines, inh) := by
  unfold changeVersionsLines parseLines
  obtain ⟨st', hfold, hout⟩ := cv_fold_empty hv lines ⟨.beginning, [], []⟩
  rw [hfold]
  dsimp only
  simp only [List.nil_append] at hout
  cases hctx : st'.ctx with
  | dependencyEntry dep meta inhF =>
    dsimp only
    obtain ⟨inh2, h2⟩ :=
      @cv_flushF_empty pkgName versions exact reqMatches hv dep meta st'.out inhF st'.inherited
    rw [h2, hout]
    exact ⟨inh2, rfl⟩
  | beginning => exact ⟨st'.inherited, by dsimp only; rw [hout]⟩
  | package => exact ⟨st'.inherited, by dsimp only; rw [hout]⟩
  | dependencies => exact ⟨st'.inherited, by dsimp only; rw [hout]⟩
  | dontCare => exact ⟨st'.inherited, by dsimp only; rw [hout]⟩

theorem rn_pkgF_empty {pkgName : List Char} {renames : List Char → Option (List Char)}
    (hr : ∀ s, renames s = none) (line : List Char) (nl : List (List Char)) :
    (rnFns pkgName renames).packageF line nl = .ok nl := by
  unfold rnFns
  simp [hr]

theorem rn_depsF_empty {pkgName : List Char} {renames : List Char → Option (List Char)}
    (hr : ∀ s, renames s = none) (line : List Char) (nl inh : List (List Char)) :
    (rnFns pkgName renames).dependenciesF line nl inh = .ok (nl, inh) := by
  unfold rnFns
  dsimp only
  rcases depDirectName line with _ | ⟨g1, nm, g3, g4⟩
  · rcases depObjRenameName line with _ | ⟨g1, pn, g3⟩
    · rcases depObjName line with _ | ⟨g1, nm, inner, g4⟩
      · rfl
      · simp [hr]
    · simp [hr]
  · simp [hr]

theorem rn_flushF_empty {pkgName : List Char} {renames : List Char → Option (List Char)}
    (hr : ∀ s, renames s = none) (dep : List Char) (meta : Option (Nat × List Char))
    (nl : List (List Char)) (inhF : Bool) (inh : List (List Char)) :
    (rnFns pkgName renames).dependencyPkgF dep meta nl inhF inh = .ok (nl, inh) := by
  unfold rnFns
  dsimp only
  cases meta with
  | none => simp [hr]
  | some im =>
    obtain ⟨i, line⟩ := im
    dsimp only
    rcases nl.get? i with _ | cur <;>
      rcases kvCapture "package".data isWordChar line with _ | ⟨g1, pn, g3⟩ <;>
      simp [hr]

theorem rn_flushPhase_empty {pkgName : List Char} {renames : List Char → Option (List Char)}
    (hr : ∀ s, renames s = none) (st : ScanState) (trimmed : List Char) :
    ∃ ctx1, scanFlush (rnFns pkgName renames) st trimmed =
      .ok ⟨ctx1, st.out, st.inherited⟩ := by
  obtain ⟨sctx, sout, sinh⟩ := st
  unfold scanFlush
  by_cases hb : trimmed.head? = some '['
  · rw [if_pos hb]
    cases sctx with
    | dependencyEntry dep meta inhF =>
      dsimp only
      rw [@rn_flushF_empty pkgName renames hr dep meta sout inhF sinh]
      exact ⟨_, rfl⟩
    | beginning => exact ⟨_, rfl⟩
    | package => exact ⟨_, rfl⟩
    | dependencies => exact ⟨_, rfl⟩
    | dontCare => exact ⟨_, rfl⟩
  · rw [if_neg hb]
    exact ⟨_, rfl⟩

theorem rn_step_empty {pkgName : List Char} {renames : List Char → Option (List Char)}
    (hr : ∀ s, renames s = none) (st : ScanState) (line : List Char) :
    ∃ ctx2, scanStep (rnFns pkgName renames) true st line =
      .ok ⟨ctx2, st.out ++ [line], st.inherited⟩ := by
  unfold scanStep
  obtain ⟨ctx1, hflush⟩ := @rn_flushPhase_empty pkgName renames hr st (trimL line)
  dsimp only
  rw [hflush]
  dsimp only
  rcases hcl : classify true (trimL line) with _ | ctx2 <;> dsimp only
  · cases ctx1 with
    | package =>
      dsimp only
      rw [@rn_pkgF_empty pkgName renames hr line st.out]
      simp
    | dependencies =>
      dsimp only
      rw [@rn_depsF_empty pkgName renames hr line st.out st.inherited]
      dsimp only
      exact ⟨Context.dependencies, by simp⟩
    | dependencyEntry dep meta inhF => exact ⟨_, rfl⟩
    | beginning => exact ⟨_, rfl⟩
    | dontCare => exact ⟨_, rfl⟩
  · exact ⟨_, rfl⟩

theorem rn_fold_empty {pkgName : List Char} {renames : List Char → Option (List Char)}
    (hr : ∀ s, renames s = none) :
    ∀ (lines : List (List Char)) (st : ScanState),
      ∃ st' : ScanState,
        scanFold (rnFns pkgName renames) true st lines = .ok st' ∧
          st'.out = st.out ++ lines ∧ st'.inherited = st.inherited := by
  intro lines
  induction lines with
  | nil => intro st; exact ⟨st, rfl, by simp, rfl⟩
  | cons l ls ih =>
    intro st
    obtain ⟨ctx2, hstep⟩ := rn_step_empty hr st l
    obtain ⟨st', hfold, hout, hinh⟩ := ih ⟨ctx2, st.out ++ [l], st.inherited⟩
    refine ⟨st', ?_, by simp [hout], hinh⟩
    rw [scanFold, hstep]
    exact hfold

theorem rn_lines_empty {pkgName : List Char} {renames : List Char → Option (List Char)}
    (hr : ∀ s, renames s = none) (lines : List (List Char)) :
    renamePackagesLines pkgName renames lines = .ok (lines, []) := by
  unfold renamePackagesLines parseLines
  obtain ⟨st', hfold, hout, hinh⟩ := rn_fold_empty hr lines ⟨.beginning, [], []⟩
  rw [hfold]
  dsimp only
  simp only [List.nil_append] at hout
  cases hctx : st'.ctx with
  | dependencyEntry dep meta inhF =>
    dsimp only
    rw [@rn_flushF_empty pkgName renames hr dep meta st'.out inhF st'.inherited, hout, hinh]
  | beginning => dsimp only; rw [hout, hinh]
  | package => dsimp only; rw [hout, hinh]
  | dependencies => dsimp only; rw [hout, hinh]
  | dontCare => dsimp only; rw [hout, hinh]

/-- C2 counterexample: a manifest ending in a line terminator is not
returned byte-identical even when no edit applies — the rewrite drops
the trailing terminator. -/
theorem c2_counterexample :
    changeVersions "p".data (fun _ => none) false (fun _ => none)
        ("[package]\nversion = \x220.1.0\x22\n".data) =
      .ok (("[package]\nversion = \x220.1.0\x22".data), []) ∧
    ("[package]\nversion = \x220.1.0\x22".data) ≠
      ("[package]\nversion = \x220.1.0\x22\n".data) := by
  constructor
  · rfl
  · decide

/-- C2 (amended): rewriting a manifest whose text already equals its
lines rejoined with its detected terminator (uniform line endings, no
trailing terminator) with an edit map containing no entries returns it
byte-identical, for both change_versions and rename_packages; a manifest
with a trailing terminator or mixed endings is instead returned as its
lines rejoined with the detected terminator. -/
theorem c2_no_edit_identity (m pkgName : List Char)
    (versions : List Char → Option Version) (renames : List Char → Option (List Char))
    (exact : Bool) (reqMatches : List Char → Option (Version → Bool))
    (hv : ∀ s, versions s = none) (hr : ∀ s, renames s = none)
    (hm : List.intercalate (lineSep m) (rustLines m) = m) :
    (∃ inh, changeVersions pkgName versions exact reqMatches m = .ok (m, inh)) ∧
    renamePackages pkgName renames m = .ok (m, []) := by
  constructor
  · obtain ⟨inh, h⟩ := cv_lines_empty hv (rustLines m)
    refine ⟨inh, ?_⟩
    unfold changeVersions parseManifest
    unfold changeVersionsLines at h
    rw [h]
    dsimp only
    rw [hm]
  · unfold renamePackages parseManifest
    have h := @rn_lines_empty pkgName renames hr (rustLines m)
    unfold renamePackagesLines at h
    rw [h]
    dsimp only
    rw [hm]

/-- Witness for C2 (amended) on a two-line LF manifest with no trailing
terminator and empty edit maps. -/
theorem c2_no_edit_identity_witness :
    (∃ inh, changeVersions "p".data (fun _ => none) false (fun _ => none)
        ("[package]\nversion = \x220.1.0\x22".data) =
      .ok (("[package]\nversion = \x220.1.0\x22".data), inh)) ∧
    renamePackages "p".data (fun _ => none)
        ("[package]\nversion = \x220.1.0\x22".data) =
      .ok (("[package]\nversion = \x220.1.0\x22".data), []) :=
  c2_no_edit_identity ("[package]\nversion = \x220.1.0\x22".data) "p".data
    (fun _ => none) (fun _ => none) false (fun _ => none)
    (fun _ => rfl) (fun _ => rfl) (by decide)

/-! ### C6: bare-string dependency rewrites -/

theorem isPrefixOf_cons_head {a : Char} {lit t : List Char}
    (h : (a :: lit).isPrefixOf t = true) : t.head? = some a := by
  cases t with
  | nil => simp [List.isPrefixOf] at h
  | cons b bs =>
    simp only [List.isPrefixOf, Bool.and_eq_true, beq_iff_eq] at h
    rw [h.1]
    rfl

theorem eatLit_some_head {a : Char} {lit t r : List Char}
    (h : eatLit (a :: lit) t = some r) : t.head? = some a := by
  unfold eatLit at h
  by_cases hp : (a :: lit).isPrefixOf t
  · exact isPrefixOf_cons_head hp
  · rw [if_neg hp] at h
    cases h

theorem packageTableHeader_head {t : List Char} (h : packageTableHeader t = true) :
    t.head? = some '[' := by
  unfold packageTableHeader at h
  rcases Bool.or_eq_true_iff.mp h with h | h <;> exact isPrefixOf_cons_head h

theorem targetHeader_head {sfx t : List Char} (h : targetHeader sfx t = true) :
    t.head? = some '[' := by
  unfold targetHeader at h
  cases he : eatLit "[target.".data t with
  | none => rw [he] at h; cases h
  | some r => exact eatLit_some_head he

theorem depTableHeader_head {t : List Char} (h : depTableHeader t = true) :
    t.head? = some '[' := by
  unfold depTableHeader at h
  rcases Bool.or_eq_true_iff.mp h with h | h
  · rcases Bool.or_eq_true_iff.mp h with h | h <;> exact isPrefixOf_cons_head h
  · exact targetHeader_head h

theorem buildDepTableHeader_head {t : List Char} (h : buildDepTableHeader t = true) :
    t.head? = some '[' := by
  unfold buildDepTableHeader at h
  rcases Bool.or_eq_true_iff.mp h with h | h
  · exact isPrefixOf_cons_head h
  · exact targetHeader_head h

theorem devDepTableHeader_head {t : List Char} (h : devDepTableHeader t = true) :
    t.head? = some '[' := by
  unfold devDepTableHeader at h
  rcases Bool.or_eq_true_iff.mp h with h | h
  · exact isPrefixOf_cons_head h
  · exact targetHeader_head h

theorem eatLit_none_of_head {a : Char} {lit t : List Char} (h : t.head? ≠ some a) :
    eatLit (a :: lit) t = none := by
  unfold eatLit
  by_cases hp : (a :: lit).isPrefixOf t
  · exact absurd (isPrefixOf_cons_head hp) h
  · rw [if_neg hp]

theorem depEntryHeader_none {t : List Char} (h : t.head? ≠ some '[') :
    depEntryHeader t = none := by
  unfold depEntryHeader
  rw [show ("[dependencies.".data) = '[' :: "dependencies.".data from rfl,
    eatLit_none_of_head h,
    show ("[workspace.dependencies.".data) = '[' :: "workspace.dependencies.".data from rfl,
    eatLit_none_of_head h]

theorem buildDepEntryHeader_none {t : List Char} (h : t.head? ≠ some '[') :
    buildDepEntryHeader t = none := by
  unfold buildDepEntryHeader
  rw [show ("[build-dependencies.".data) = '[' :: "build-dependencies.".data from rfl,
    eatLit_none_of_head h]

theorem devDepEntryHeader_none {t : List Char} (h : t.head? ≠ some '[') :
    devDepEntryHeader t = none := by
  unfold devDepEntryHeader
  rw [show ("[dev-dependencies.".data) = '[' :: "dev-dependencies.".data from rfl,
    eatLit_none_of_head h]

theorem bool_false_of_head {P : List Char → Bool} {t : List Char}
    (hP : P t = true → t.head? = some '[') (h : t.head? ≠ some '[') : P t = false := by
  cases hx : P t with
  | true => exact absurd (hP hx) h
  | false => rfl

theorem classify_nonbracket {dev : Bool} {t : List Char} (h : t.head? ≠ some '[') :
    classify dev t = none := by
  unfold classify
  rw [bool_false_of_head packageTableHeader_head h,
    bool_false_of_head depTableHeader_head h,
    bool_false_of_head buildDepTableHeader_head h,
    bool_false_of_head devDepTableHeader_head h,
    depEntryHeader_none h, buildDepEntryHeader_none h, devDepEntryHeader_none h]
  simp [h]

theorem dropWhile_append_single {c : Char} {xs : List Char} (hc : isWs c = false) :
    ∃ t, (xs ++ [c]).dropWhile isWs = t ++ [c] := by
  induction xs with
  | nil => exact ⟨[], by simp [List.dropWhile, hc]⟩
  | cons x xs ih =>
    by_cases hx : isWs x
    · simpa [List.dropWhile, hx] using ih
    · exact ⟨x :: xs, by simp [List.dropWhile, hx]⟩

theorem trimL_head {l : List Char} {c : Char} {rest : List Char}
    (hd : l.dropWhile isWs = c :: rest) (hc : isWs c = false) :
    (trimL l).head? = some c := by
  unfold trimL
  rw [hd]
  have : (c :: rest).reverse = rest.reverse ++ [c] := by simp
  rw [this]
  obtain ⟨t, ht⟩ := @dropWhile_append_single c rest.reverse hc
  rw [ht]
  simp

theorem ws_char_classes {c : Char} (h : isWs c = true) :
    isQuote c = false ∧ isWordChar c = false := by
  simp only [isWs, Bool.or_eq_true, decide_eq_true_eq] at h
  rcases h with ((((h | h) | h) | h) | h) | h <;> subst h <;> exact ⟨by decide, by decide⟩

theorem parseNameHead_first {l h nm r : List Char}
    (hp : parseNameHead l = some (h, nm, r)) :
    ∃ c rest, l.dropWhile isWs = c :: rest ∧ (isQuote c = true ∨ isWordChar c = true) := by
  unfold parseNameHead at hp
  cases hr1 : l.dropWhile isWs with
  | nil =>
    rw [hr1] at hp
    simp only at hp
    by_cases hnm : ([] : List Char).takeWhile isWordChar = []
    · simp [hnm] at hp
    · simp at hnm
  | cons c cs =>
    rw [hr1] at hp
    refine ⟨c, cs, rfl, ?_⟩
    by_cases hq : isQuote c
    · exact Or.inl hq
    · right
      cases hw : isWordChar c with
      | true => rfl
      | false =>
        exfalso
        dsimp only at hp
        rw [if_neg hq] at hp
        dsimp only at hp
        rw [List.takeWhile_cons_of_neg (by simp [hw])] at hp
        simp at hp

theorem parseNameHead_not_ws {c : Char} (hc : isQuote c = true ∨ isWordChar c = true) :
    isWs c = false := by
  cases hw : isWs c with
  | false => rfl
  | true =>
    obtain ⟨h1, h2⟩ := ws_char_classes hw
    rcases hc with hc | hc <;> simp_all

theorem quote_ne_chars {c : Char} (hq : isQuote c = true) : c ≠ '[' ∧ c ≠ '\x7b' := by
  simp only [isQuote, Bool.or_eq_true, decide_eq_true_eq] at hq
  rcases hq with hq | hq <;> subst hq <;> exact ⟨by decide, by decide⟩

theorem word_ne_bracket {c : Char} (hw : isWordChar c = true) : c ≠ '[' := by
  intro he
  subst he
  exact absurd hw (by decide)

theorem depDirectVersion_inv {line g1 nm req g4 : List Char}
    (hl : depDirectVersion line = some (g1, nm, req, g4)) :
    ∃ h e r r2 q r3,
      parseNameHead line = some (h, nm, r) ∧ parseEq r = some (e, r2) ∧
      r2 = q :: r3 ∧ isQuote q = true ∧
      req = r3.takeWhile isNonQuote ∧ req ≠ [] ∧
      g4 = r3.dropWhile isNonQuote ∧ g4 ≠ [] ∧ g1 = h ++ e ++ [q] := by
  unfold depDirectVersion at hl
  cases hph : parseNameHead line with
  | none => rw [hph] at hl; cases hl
  | some t =>
    obtain ⟨h, nm2, r⟩ := t
    rw [hph] at hl
    dsimp only at hl
    cases hpe : parseEq r with
    | none => rw [hpe] at hl; cases hl
    | some t2 =>
      obtain ⟨e, r2⟩ := t2
      rw [hpe] at hl
      dsimp only at hl
      cases hr2 : r2 with
      | nil => rw [hr2] at hl; cases hl
      | cons q r3 =>
        rw [hr2] at hl
        dsimp only at hl
        by_cases hq : isQuote q
        · rw [if_pos hq] at hl
          by_cases hct : r3.takeWhile isNonQuote = []
          · simp only [hct, if_pos] at hl
            cases hl
          · rw [if_neg hct] at hl
            cases hg4 : r3.dropWhile isNonQuote with
            | nil => rw [hg4] at hl; cases hl
            | cons x xs =>
              rw [hg4] at hl
              dsimp only at hl
              cases hl
              exact ⟨h, e, r, r2, q, r3, rfl, hpe, hr2, hq, rfl, hct, hg4.symm, by simp,
                rfl⟩
        · rw [if_neg hq] at hl
          cases hl

theorem parseEq_eqChar {r e r2 : List Char} (h : parseEq r = some (e, r2)) :
    ∃ tail, r.dropWhile isWs = '=' :: tail := by
  unfold parseEq at h
  cases hd : r.dropWhile isWs with
  | nil => rw [hd] at h; cases h
  | cons c cs =>
    rw [hd] at h
    dsimp only at h
    refine ⟨cs, ?_⟩
    split at h
    · rename_i r3 heq
      injection heq with h1 h2
      rw [h1]
    · cases h

theorem depDirectInherited_none_of_direct {line g1 nm req g4 : List Char}
    (hl : depDirectVersion line = some (g1, nm, req, g4)) :
    depDirectInherited line = none := by
  obtain ⟨h, e, r, r2, q, r3, hph, hpe, _, _, _, _, _, _, _⟩ := depDirectVersion_inv hl
  obtain ⟨tail, htail⟩ := parseEq_eqChar hpe
  unfold depDirectInherited
  rw [hph]
  dsimp only
  unfold eatWs
  rw [htail]
  rfl

theorem depObjInherited_none_of_direct {line g1 nm req g4 : List Char}
    (hl : depDirectVersion line = some (g1, nm, req, g4)) :
    depObjInherited line = none := by
  obtain ⟨h, e, r, r2, q, r3, hph, hpe, hr2, hq, _, _, _, _, _⟩ := depDirectVersion_inv hl
  have hq2 : q ≠ '\x7b' := (quote_ne_chars hq).2
  unfold depObjInherited
  rw [hph]
  dsimp only
  rw [hpe]
  dsimp only
  rw [hr2]
  split
  · rename_i t heq
    injection heq with h1 h2
    exact absurd h1 hq2
  · rfl

theorem scanStep_deps {fns : ParseFns} {devDeps : Bool} {out inh : List (List Char)}
    {line : List Char} (hcl : classify devDeps (trimL line) = none) :
    scanStep fns devDeps ⟨.dependencies, out, inh⟩ line =
      match fns.dependenciesF line out inh with
      | .ok (nl, inh2) =>
        .ok ⟨.dependencies, if nl.length = out.length then nl ++ [line] else nl, inh2⟩
      | .error e => .error e := by
  unfold scanStep scanFlush
  dsimp only
  rw [ite_self]
  dsimp only
  rw [hcl]

/-- **C6** (edit_version, utils/cargo.rs): for a single-line bare-string
dependency declaration `dep = "req"` inside `[dependencies]` whose
dependency has an entry in the version map, with exact mode off the
requirement is rewritten to the new version exactly when the existing
requirement does not already match it, and with exact mode on it is
always rewritten to the literal pin `="<new>"`; the groups around the
requirement are preserved. -/
theorem c6_bare_string_rewrite (pkgName line g1 nm req g4 : List Char)
    (versions : List Char → Option Version) (exact : Bool)
    (reqMatches : List Char → Option (Version → Bool)) (nv : Version) (f : Version → Bool)
    (hline : depDirectVersion line = some (g1, nm, req, g4))
    (hv : versions nm = some nv) (hf : reqMatches req = some f) :
    changeVersionsLines pkgName versions exact reqMatches ["[dependencies]".data, line] =
      .ok (["[dependencies]".data,
        if exact then g1 ++ '=' :: versionChars nv ++ g4
        else if f nv then line else g1 ++ versionChars nv ++ g4], []) := by
  have hdi := depDirectInherited_none_of_direct hline
  have hoi := depObjInherited_none_of_direct hline
  obtain ⟨h, e, r, r2, q, r3, hph, hpe, hr2, hq, hreq, hreqne, hg4d, hg4n, hg1⟩ :=
    depDirectVersion_inv hline
  obtain ⟨c, rest, hcr, hcw⟩ := parseNameHead_first hph
  have hhead : (trimL line).head? = some c := trimL_head hcr (parseNameHead_not_ws hcw)
  have hnb : (trimL line).head? ≠ some '[' := by
    rw [hhead]
    intro hx
    injection hx with hc
    rcases hcw with hcw | hcw
    · exact (quote_ne_chars hcw).1 hc
    · exact word_ne_bracket hcw hc
  have hcl : classify false (trimL line) = none := classify_nonbracket hnb
  have hdeps : ∀ nl inh, (cvFns pkgName versions exact reqMatches).dependenciesF line nl inh =
      (editVersion g1 req g4 nm nl versions exact reqMatches).map (fun l => (l, inh)) := by
    intro nl inh
    unfold cvFns
    dsimp only
    rw [hdi, hoi, hline]
  cases exact with
  | true =>
    have hstep2 : scanStep (cvFns pkgName versions true reqMatches) false
        ⟨.dependencies, ["[dependencies]".data], []⟩ line =
        .ok ⟨.dependencies,
          ["[dependencies]".data, g1 ++ '=' :: versionChars nv ++ g4], []⟩ := by
      rw [scanStep_deps hcl, hdeps]
      unfold editVersion
      rw [hv]
      rfl
    have hfold : scanFold (cvFns pkgName versions true reqMatches) false
        ⟨.beginning, [], []⟩ ["[dependencies]".data, line] =
        .ok ⟨.dependencies,
          ["[dependencies]".data, g1 ++ '=' :: versionChars nv ++ g4], []⟩ := by
      simp only [scanFold]
      rw [show scanStep (cvFns pkgName versions true reqMatches) false ⟨.beginning, [], []⟩
          ("[dependencies]".data) = .ok ⟨.dependencies, ["[dependencies]".data], []⟩ from rfl]
      dsimp only
      rw [hstep2]
    unfold changeVersionsLines parseLines
    rw [hfold]
    rfl
  | false =>
    cases hfn : f nv with
    | true =>
      have hstep2 : scanStep (cvFns pkgName versions false reqMatches) false
          ⟨.dependencies, ["[dependencies]".data], []⟩ line =
          .ok ⟨.dependencies, ["[dependencies]".data, line], []⟩ := by
        rw [scanStep_deps hcl, hdeps]
        unfold editVersion
        rw [hv]
        dsimp only
        rw [hf]
        dsimp only
        rw [hfn]
        rfl
      have hfold : scanFold (cvFns pkgName versions false reqMatches) false
          ⟨.beginning, [], []⟩ ["[dependencies]".data, line] =
          .ok ⟨.dependencies, ["[dependencies]".data, line], []⟩ := by
        simp only [scanFold]
        rw [show scanStep (cvFns pkgName versions false reqMatches) false ⟨.beginning, [], []⟩
            ("[dependencies]".data) = .ok ⟨.dependencies, ["[dependencies]".data], []⟩ from rfl]
        dsimp only
        rw [hstep2]
      unfold changeVersionsLines parseLines
      rw [hfold]
      rfl
    | false =>
      have hstep2 : scanStep (cvFns pkgName versions false reqMatches) false
          ⟨.dependencies, ["[dependencies]".data], []⟩ line =
          .ok ⟨.dependencies,
            ["[dependencies]".data, g1 ++ versionChars nv ++ g4], []⟩ := by
        rw [scanStep_deps hcl, hdeps]
        unfold editVersion
        rw [hv]
        dsimp only
        rw [hf]
        dsimp only
        rw [hfn]
        rfl
      have hfold : scanFold (cvFns pkgName versions false reqMatches) false
          ⟨.beginning, [], []⟩ ["[dependencies]".data, line] =
          .ok ⟨.dependencies,
            ["[dependencies]".data, g1 ++ versionChars nv ++ g4], []⟩ := by
        simp only [scanFold]
        rw [show scanStep (cvFns pkgName versions false reqMatches) false ⟨.beginning, [], []⟩
            ("[dependencies]".data) = .ok ⟨.dependencies, ["[dependencies]".data], []⟩ from rfl]
        dsimp only
        rw [hstep2]
      unfold changeVersionsLines parseLines
      rw [hfold]
      rfl

/-- Witness for **C6**: the declaration `this = "0.1.0"` with new
version 1.0.0 and a requirement oracle answering `false` is rewritten
in place (exact mode off). -/
theorem c6_bare_string_rewrite_witness :
    changeVersionsLines "pkg".data
      (fun s => if s = "this".data then some ⟨1, 0, 0, [], []⟩ else none) false
      (fun s => if s = "0.1.0".data then some (fun _ => false) else none)
      ["[dependencies]".data, "this = \x220.1.0\x22".data] =
      .ok (["[dependencies]".data,
        if false then "this = \x22".data ++ '=' :: versionChars ⟨1, 0, 0, [], []⟩ ++ ['\x22']
        else if (fun (_ : Version) => false) ⟨1, 0, 0, [], []⟩ then "this = \x220.1.0\x22".data
        else "this = \x22".data ++ versionChars ⟨1, 0, 0, [], []⟩ ++ ['\x22']], []) :=
  c6_bare_string_rewrite "pkg".data "this = \x220.1.0\x22".data "this = \x22".data
    "this".data "0.1.0".data ['\x22']
    (fun s => if s = "this".data then some ⟨1, 0, 0, [], []⟩ else none) false
    (fun s => if s = "0.1.0".data then some (fun _ => false) else none)
    ⟨1, 0, 0, [], []⟩ (fun _ => false) rfl rfl rfl


/-! ### C10: output terminator and separator style -/

theorem mem_of_getLastQ {α : Type} {l : List α} {a : α} (h : l.getLast? = some a) :
    a ∈ l := by
  induction l with
  | nil => cases h
  | cons x xs ih =>
    cases xs with
    | nil =>
      simp only [List.getLast?_singleton, Option.some.injEq] at h
      simp [h]
    | cons y ys =>
      rw [List.getLast?_cons_cons] at h
      exact List.mem_cons_of_mem x (ih h)

theorem intercalate_cons2 (sep a b : List Char) (t : List (List Char)) :
    List.intercalate sep (a :: b :: t) = a ++ (sep ++ List.intercalate sep (b :: t)) := by
  simp [List.intercalate, List.intersperse]

theorem intercalate_one (sep a : List Char) : List.intercalate sep [a] = a := by
  simp [List.intercalate, List.intersperse]

theorem splitNL_no_nl (s : List Char) : ∀ l ∈ splitNL s, '\n' ∉ l := by
  induction s with
  | nil =>
    intro l hl
    simp only [splitNL, List.mem_singleton] at hl
    subst hl
    simp
  | cons c cs ih =>
    intro l hl
    by_cases hc : c = '\n'
    · simp only [splitNL, if_pos hc] at hl
      rcases List.mem_cons.mp hl with rfl | hl2
      · simp
      · exact ih l hl2
    · simp only [splitNL, if_neg hc] at hl
      cases hsp : splitNL cs with
      | nil =>
        rw [hsp] at hl
        simp only [List.mem_singleton] at hl
        subst hl
        simp only [List.mem_singleton]
        exact fun h => hc h.symm
      | cons l0 ls0 =>
        rw [hsp] at hl
        rcases List.mem_cons.mp hl with rfl | hl2
        · intro hmem
          rcases List.mem_cons.mp hmem with h1 | h1
          · exact hc h1.symm
          · exact ih l0 (by rw [hsp]; exact List.mem_cons_self l0 ls0) h1
        · exact ih l (by rw [hsp]; exact List.mem_cons_of_mem l0 hl2)

theorem stripCRend_map_no_nl {s l : List Char}
    (hl : l ∈ (splitNL s).dropLast.map stripCRend) : '\n' ∉ l := by
  obtain ⟨p, hp, rfl⟩ := List.mem_map.mp hl
  intro hmem
  have hp2 : p ∈ splitNL s := List.dropLast_subset _ hp
  have hmem2 : '\n' ∈ p := by
    unfold stripCRend at hmem
    by_cases hlast : p.getLast? = some '\r'
    · rw [if_pos hlast] at hmem
      exact List.dropLast_subset _ hmem
    · rw [if_neg hlast] at hmem
      exact hmem
  exact splitNL_no_nl s p hp2 hmem2

theorem rustLines_no_nl (s : List Char) : ∀ l ∈ rustLines s, '\n' ∉ l := by
  intro l hl
  unfold rustLines at hl
  dsimp only at hl
  cases hg : (splitNL s).getLast? with
  | none =>
    rw [hg] at hl
    exact stripCRend_map_no_nl hl
  | some last =>
    rw [hg] at hl
    dsimp only at hl
    by_cases hle : last = []
    · rw [if_pos hle] at hl
      exact stripCRend_map_no_nl hl
    · rw [if_neg hle] at hl
      rcases List.mem_append.mp hl with hl2 | hl2
      · exact stripCRend_map_no_nl hl2
      · simp only [List.mem_singleton] at hl2
        subst hl2
        exact splitNL_no_nl s l (mem_of_getLastQ hg)

theorem intercalate_getLast_nl {sep : List Char} (hsep : sep.getLast? = some '\n') :
    ∀ (lines : List (List Char)), (∀ l ∈ lines, '\n' ∉ l) →
    (((List.intercalate sep lines).getLast? = some '\n') ↔
      (lines.getLast? = some ([] : List Char) ∧ 2 ≤ lines.length)) := by
  intro lines
  induction lines with
  | nil =>
    intro _
    simp [List.intercalate]
  | cons a rest ih =>
    intro hnl
    cases rest with
    | nil =>
      rw [intercalate_one]
      constructor
      · intro hL
        exact absurd (mem_of_getLastQ hL) (hnl a (List.mem_cons_self a []))
      · rintro ⟨_, h2⟩
        simp at h2
    | cons b t =>
      rw [intercalate_cons2, List.getLast?_append, List.getLast?_append, hsep]
      cases hX : (List.intercalate sep (b :: t)).getLast? with
      | none =>
        have hXe : List.intercalate sep (b :: t) = [] := List.getLast?_eq_none_iff.mp hX
        cases t with
        | nil =>
          have hb : b = [] := by rw [intercalate_one] at hXe; exact hXe
          subst hb
          constructor
          · intro _
            exact ⟨by simp, by simp⟩
          · intro _
            rfl
        | cons c t2 =>
          exfalso
          rw [intercalate_cons2] at hXe
          have h2 := (List.append_eq_nil.mp hXe).2
          have h3 := (List.append_eq_nil.mp h2).1
          rw [h3] at hsep
          cases hsep
      | some y =>
        have hih := ih (fun l hl => hnl l (List.mem_cons_of_mem a hl))
        rw [hX] at hih
        rw [List.getLast?_cons_cons]
        constructor
        · intro hy
          obtain ⟨h1, _⟩ := hih.mp hy
          refine ⟨h1, ?_⟩
          simp only [List.length_cons]
          omega
        · rintro ⟨h1, _⟩
          cases t with
          | nil =>
            exfalso
            simp only [List.getLast?_singleton, Option.some.injEq] at h1
            rw [intercalate_one, h1] at hX
            cases hX
          | cons c t2 =>
            refine hih.mpr ⟨h1, ?_⟩
            simp only [List.length_cons]
            omega

/-- Counterexample to **C10**: on the input `a\n\n` (whose final line
is empty) the rewrite with no applicable edits returns `a\n`, which
ends with a line terminator. -/
theorem c10_counterexample :
    changeVersions "p".data (fun _ => none) false (fun _ => none) "a\n\n".data =
      .ok ("a\n".data, []) ∧ ("a\n".data).getLast? = some '\n' :=
  ⟨rfl, rfl⟩

/-- **C10** (amended): with no applicable edits, the rewrite returns
the input lines rejoined with the single detected separator (CRLF when
the input contains a CRLF, LF otherwise); the lines carry no `\n`, so
every separator between output lines is exactly that terminator, and
the output ends with a line terminator precisely when the input has at
least two lines and its final line is empty (not never, as claimed). -/
theorem c10_terminator_separator (m pkgName : List Char)
    (versions : List Char → Option Version) (exact : Bool)
    (reqMatches : List Char → Option (Version → Bool))
    (hv : ∀ s, versions s = none) :
    (∃ inh, changeVersions pkgName versions exact reqMatches m =
      .ok (List.intercalate (lineSep m) (rustLines m), inh)) ∧
    lineSep m = (if containsCRLF m then ['\r', '\n'] else ['\n']) ∧
    (∀ l ∈ rustLines m, '\n' ∉ l) ∧
    ((List.intercalate (lineSep m) (rustLines m)).getLast? = some '\n' ↔
      ((rustLines m).getLast? = some [] ∧ 2 ≤ (rustLines m).length)) := by
  refine ⟨?_, rfl, rustLines_no_nl m, ?_⟩
  · obtain ⟨inh, h⟩ := cv_lines_empty hv (rustLines m)
    refine ⟨inh, ?_⟩
    unfold changeVersions parseManifest
    unfold changeVersionsLines at h
    rw [h]
  · refine intercalate_getLast_nl ?_ (rustLines m) (rustLines_no_nl m)
    unfold lineSep
    by_cases hc : containsCRLF m
    · rw [if_pos hc]
      decide
    · rw [if_neg hc]
      decide

/-- Witness for **C10** at the CRLF input `a\r\nb`. -/
theorem c10_terminator_separator_witness :
    (∃ inh, changeVersions "p".data (fun _ => none) false (fun _ => none) "a\r\nb".data =
      .ok (List.intercalate (lineSep "a\r\nb".data) (rustLines "a\r\nb".data), inh)) ∧
    lineSep "a\r\nb".data =
      (if containsCRLF "a\r\nb".data then ['\r', '\n'] else ['\n']) ∧
    (∀ l ∈ rustLines "a\r\nb".data, '\n' ∉ l) ∧
    ((List.intercalate (lineSep "a\r\nb".data) (rustLines "a\r\nb".data)).getLast? =
        some '\n' ↔
      ((rustLines "a\r\nb".data).getLast? = some [] ∧
        2 ≤ (rustLines "a\r\nb".data).length)) :=
  c10_terminator_separator "a\r\nb".data "p".data (fun _ => none) false (fun _ => none)
    (fun _ => rfl)


/-! ### C5: workspace-inherited dependency entries -/

theorem depDirectInherited_name {line nm : List Char}
    (h : depDirectInherited line = some nm) :
    ∃ hh r, parseNameHead line = some (hh, nm, r) := by
  unfold depDirectInherited at h
  cases hph : parseNameHead line with
  | none => rw [hph] at h; cases h
  | some t =>
    obtain ⟨hh, nm2, r⟩ := t
    rw [hph] at h
    dsimp only at h
    cases he : eatChar '.' (eatWs r) with
    | none => rw [he] at h; cases h
    | some r2 =>
      rw [he] at h
      dsimp only at h
      cases hwk : workspaceKeyAt (eatWs r2) with
      | none => rw [hwk] at h; cases h
      | some w =>
        rw [hwk] at h
        dsimp only at h
        injection h with h1
        subst h1
        exact ⟨hh, r, rfl⟩

theorem depObjInherited_name {line nm : List Char}
    (h : depObjInherited line = some nm) :
    ∃ hh r, parseNameHead line = some (hh, nm, r) := by
  unfold depObjInherited at h
  cases hph : parseNameHead line with
  | none => rw [hph] at h; cases h
  | some t =>
    obtain ⟨hh, nm2, r⟩ := t
    rw [hph] at h
    dsimp only at h
    cases hpe : parseEq r with
    | none => rw [hpe] at h; cases h
    | some t2 =>
      obtain ⟨e, r2⟩ := t2
      rw [hpe] at h
      dsimp only at h
      cases hr2 : r2 with
      | nil => rw [hr2] at h; cases h
      | cons c t3 =>
        rw [hr2] at h
        split at h
        · split at h
          · injection h with h1
            subst h1
            exact ⟨hh, r, rfl⟩
          · cases h
        · cases h

theorem scanStep_depEntry_ws {fns : ParseFns} {devDeps : Bool} {dep : List Char}
    {meta : Option (Nat × List Char)} {inherits : Bool} {out inh : List (List Char)}
    {line : List Char}
    (hnb : (trimL line).head? ≠ some '[')
    (hcl : classify devDeps (trimL line) = none)
    (hent : fns.dependencyEntriesF line = (true, none, none)) :
    scanStep fns devDeps ⟨.dependencyEntry dep meta inherits, out, inh⟩ line =
      .ok ⟨.dependencyEntry dep meta true, out ++ [line], inh⟩ := by
  unfold scanStep scanFlush
  rw [hent]
  dsimp only
  rw [if_neg hnb]
  dsimp only
  rw [hcl]
  dsimp only
  rw [Bool.or_true]
  rfl

/-- **C5** (amended): inside a `[dependencies]` table, a dependency
declared workspace-inherited inline (`dep = \x7b workspace = true \x7d`) or
dotted (`dep.workspace = true`) is left textually unchanged by a
version edit and its name is returned in the inherited set; and a
`workspace = true` line inside a dependency sub-table marks the whole
sub-table inherited, so the dependency is reported on flush and the
line is left unchanged.  (Under a `[dev-dependencies]` table the same
entries are skipped entirely: unchanged but not reported.) -/
theorem c5_workspace_inherited (pkgName line nm hdr dep wline : List Char)
    (versions : List Char → Option Version) (exact : Bool)
    (reqMatches : List Char → Option (Version → Bool))
    (hinh : Option.or (depDirectInherited line) (depObjInherited line) = some nm)
    (hhdr : classify false (trimL hdr) = some (.dependencyEntry dep none false))
    (hw : containsWorkspaceKey wline = true)
    (hnw : (trimL wline).head? ≠ some '[') :
    changeVersionsLines pkgName versions exact reqMatches ["[dependencies]".data, line] =
      .ok (["[dependencies]".data, line], [nm]) ∧
    changeVersionsLines pkgName versions exact reqMatches [hdr, wline] =
      .ok ([hdr, wline], [dep]) := by
  constructor
  · have hph : ∃ hh r, parseNameHead line = some (hh, nm, r) := by
      cases hor : depDirectInherited line with
      | some x =>
        rw [hor] at hinh
        simp at hinh
        subst hinh
        exact depDirectInherited_name hor
      | none =>
        rw [hor] at hinh
        simp at hinh
        exact depObjInherited_name hinh
    obtain ⟨hh, r, hph⟩ := hph
    obtain ⟨c, rest, hcr, hcw⟩ := parseNameHead_first hph
    have hhead : (trimL line).head? = some c := trimL_head hcr (parseNameHead_not_ws hcw)
    have hnb : (trimL line).head? ≠ some '[' := by
      rw [hhead]
      intro hx
      injection hx with hc
      rcases hcw with hcw | hcw
      · exact (quote_ne_chars hcw).1 hc
      · exact word_ne_bracket hcw hc
    have hcl : classify false (trimL line) = none := classify_nonbracket hnb
    have hdeps : (cvFns pkgName versions exact reqMatches).dependenciesF line
        ["[dependencies]".data] [] = .ok (["[dependencies]".data], [nm]) := by
      cases hor : depDirectInherited line with
      | some x =>
        rw [hor] at hinh
        simp at hinh
        subst hinh
        unfold cvFns
        dsimp only
        rw [hor]
        dsimp only
        simp [setInsert]
      | none =>
        rw [hor] at hinh
        simp at hinh
        unfold cvFns
        dsimp only
        rw [hor]
        dsimp only
        rw [hinh]
        dsimp only
        simp [setInsert]
    have hstep2 : scanStep (cvFns pkgName versions exact reqMatches) false
        ⟨.dependencies, ["[dependencies]".data], []⟩ line =
        .ok ⟨.dependencies, ["[dependencies]".data, line], [nm]⟩ := by
      rw [scanStep_deps hcl, hdeps]
      rfl
    have hfold : scanFold (cvFns pkgName versions exact reqMatches) false
        ⟨.beginning, [], []⟩ ["[dependencies]".data, line] =
        .ok ⟨.dependencies, ["[dependencies]".data, line], [nm]⟩ := by
      simp only [scanFold]
      rw [show scanStep (cvFns pkgName versions exact reqMatches) false ⟨.beginning, [], []⟩
          ("[dependencies]".data) = .ok ⟨.dependencies, ["[dependencies]".data], []⟩ from rfl]
      dsimp only
      rw [hstep2]
    unfold changeVersionsLines parseLines
    rw [hfold]
  · have hcl2 : classify false (trimL wline) = none := classify_nonbracket hnw
    have hent : (cvFns pkgName versions exact reqMatches).dependencyEntriesF wline =
        (true, none, none) := by
      unfold cvFns
      dsimp only
      rw [if_pos hw]
    have hstep1 : scanStep (cvFns pkgName versions exact reqMatches) false
        ⟨.beginning, [], []⟩ hdr = .ok ⟨.dependencyEntry dep none false, [hdr], []⟩ := by
      unfold scanStep scanFlush
      dsimp only
      rw [ite_self]
      dsimp only
      rw [hhdr]
      rfl
    have hstep2 : scanStep (cvFns pkgName versions exact reqMatches) false
        ⟨.dependencyEntry dep none false, [hdr], []⟩ wline =
        .ok ⟨.dependencyEntry dep none true, [hdr, wline], []⟩ :=
      scanStep_depEntry_ws hnw hcl2 hent
    have hfold : scanFold (cvFns pkgName versions exact reqMatches) false
        ⟨.beginning, [], []⟩ [hdr, wline] =
        .ok ⟨.dependencyEntry dep none true, [hdr, wline], []⟩ := by
      simp only [scanFold]
      rw [hstep1]
      dsimp only
      rw [hstep2]
    unfold changeVersionsLines parseLines
    rw [hfold]
    rfl

/-- Counterexample to **C5**: under `[dev-dependencies]` the entry
`this = \x7b workspace = true \x7d` is workspace-inherited (DEP_OBJ_INHERITED
matches it), is left unchanged, yet change_versions returns an empty
inherited set, because parse is called with dev_deps = false and the
whole table is skipped. -/
theorem c5_counterexample :
    changeVersions "p".data (fun _ => none) false (fun _ => none)
        "[dev-dependencies]\nthis = \x7b workspace = true \x7d".data =
      .ok ("[dev-dependencies]\nthis = \x7b workspace = true \x7d".data, []) ∧
    depObjInherited "this = \x7b workspace = true \x7d".data = some "this".data :=
  ⟨rfl, rfl⟩

/-- Witness for **C5**: the dotted entry `this.workspace = true` under
`[dependencies]`, and the sub-table `[dependencies.foo]` with a
`workspace = true` line. -/
theorem c5_workspace_inherited_witness :
    changeVersionsLines "p".data (fun _ => none) false (fun _ => none)
        ["[dependencies]".data, "this.workspace = true".data] =
      .ok (["[dependencies]".data, "this.workspace = true".data], ["this".data]) ∧
    changeVersionsLines "p".data (fun _ => none) false (fun _ => none)
        ["[dependencies.foo]".data, "workspace = true".data] =
      .ok (["[dependencies.foo]".data, "workspace = true".data], ["foo".data]) :=
  c5_workspace_inherited "p".data "this.workspace = true".data "this".data
    "[dependencies.foo]".data "foo".data "workspace = true".data
    (fun _ => none) false (fun _ => none) rfl rfl rfl (by decide)

end Cw
